import Mathlib

/-
Verification of the deepgrep pattern-matching core (deepgrep/core/matcher.py,
parser.py, engine.py) against its specification.

Modelling conventions:
* Input lines, pattern strings and captured texts are `List Char`.
* A Python `MatchState` is `MatchState` below; its `groups` dict is a
  key-sorted association list (every dict reachable from an empty dict via
  `gcopy[gid] = text` updates is represented canonically this way), so that
  list equality coincides with Python dict equality.
* A Python `set` of states is a `Finset MatchState`, keyed by the whole
  (pos, groups) value - i.e. the behaviour of CPython's hash-bucketed sets
  in the absence of hash collisions, with hash = hash((pos, sorted items)).
* Matching can raise in Python (`int("")` inside `Quantified.match`), so the
  evaluator returns `Option (Finset MatchState)`: `none` models an exception.
* The unbounded loops of PlusMatcher / StarMatcher and all recursion are
  driven by an explicit fuel parameter; `none` is also returned when fuel
  runs out.  The code's semantics is the fuel-limit: by `matchM_mono`,
  once some fuel returns `some S`, every larger fuel returns the same `some S`.
-/

/-- The state of one matching path: `pos` is the current offset into the line,
`groups` the capture dictionary, as a key-sorted association list. -/
structure MatchState where
  pos : Nat
  groups : List (Nat × List Char)
deriving DecidableEq, Repr

/-- Dict lookup, as `state.groups[gid]` / `gid in state.groups` read it. -/
def groupsLookup (k : Nat) : List (Nat × List Char) → Option (List Char)
  | [] => none
  | (k', v') :: rest => if k = k' then some v' else groupsLookup k rest

/-- Dict update `gcopy[gid] = text` on the canonical key-sorted representation:
inserts at the sorted position, replacing an existing binding of the key. -/
def groupsInsert (k : Nat) (v : List Char) : List (Nat × List Char) → List (Nat × List Char)
  | [] => [(k, v)]
  | (k', v') :: rest =>
    if k < k' then (k, v) :: (k', v') :: rest
    else if k = k' then (k, v) :: rest
    else (k', v') :: groupsInsert k v rest

/-- The dataclass equality of `MatchState`: `groups` is declared
`field(compare=False)`, so only `pos` is compared. -/
def msEq (a b : MatchState) : Bool := a.pos == b.pos

/-- Insertion sort of dict items by key, as `sorted(self.groups.items())`
produces it (keys of a dict are distinct, so key order determines the order). -/
def sortedItems : List (Nat × List Char) → List (Nat × List Char)
  | [] => []
  | p :: rest => insertItem p (sortedItems rest)
where
  insertItem (p : Nat × List Char) : List (Nat × List Char) → List (Nat × List Char)
    | [] => [p]
    | q :: rest => if p.1 ≤ q.1 then p :: q :: rest else q :: insertItem p rest

/-- The tuple that `MatchState.__hash__` hashes: `(self.pos,
tuple(sorted(self.groups.items())))`.  The Python hash value is a function of
exactly this data. -/
def msHashKey (s : MatchState) : Nat × List (Nat × List Char) :=
  (s.pos, sortedItems s.groups)

/-- The matcher-tree node hierarchy of matcher.py as a sum type. -/
inductive Matcher where
  | literal (c : Char)
  | digit
  | word
  | anyChar
  | charClass (charset : List Char) (negated : Bool)
  | sequence (ms : List Matcher)
  | alternation (l r : Matcher)
  | opt (m : Matcher)
  | plus (m : Matcher)
  | star (m : Matcher)
  | anchorStart
  | anchorEnd
  | captureGroup (m : Matcher) (gid : Nat)
  | backreference (gid : Nat)
  | quantified (m : Matcher) (kind : List Char)
deriving Repr

/-- Iterating a fallible matcher over a Python set and unioning the results
(`for s in states: next_states |= matcher.match(line, s)`): the union when
every element evaluates cleanly, `none` (an exception) when any element raises. -/
def unionOver (f : MatchState → Option (Finset MatchState)) (ss : Finset MatchState) :
    Option (Finset MatchState) :=
  if ∀ t ∈ ss, (f t).isSome then some (ss.biUnion fun t => (f t).getD ∅) else none

/-- The body of `SequenceMatcher.match`: fold the state set through the
matchers in order, stopping early (without evaluating the remaining matchers)
when the set becomes empty. -/
def seqFold (f : Matcher → MatchState → Option (Finset MatchState)) :
    List Matcher → Finset MatchState → Option (Finset MatchState)
  | [], states => some states
  | m :: rest, states =>
    if states = ∅ then some ∅
    else match unionOver (f m) states with
      | none => none
      | some nxt => seqFold f rest nxt

/-- The minimum-repetitions loop of `Quantified.match` (`for _ in range(n)`),
returning the empty set as soon as a round produces no state. -/
def repeatN (f : MatchState → Option (Finset MatchState)) :
    Nat → Finset MatchState → Option (Finset MatchState)
  | 0, states => some states
  | n + 1, states =>
    match unionOver f states with
    | none => none
    | some nxt => if nxt = ∅ then some ∅ else repeatN f n nxt

/-- The optional-repetitions loop of the bounded `{n,m}` branch
(`for _ in range(m - n): ... results += next_results`): each round applies the
node to the whole accumulated set and unions in what it produces. -/
def accumRounds (f : MatchState → Option (Finset MatchState)) :
    Nat → Finset MatchState → Option (Finset MatchState)
  | 0, results => some results
  | r + 1, results =>
    match unionOver f results with
    | none => none
    | some nxt => accumRounds f r (results ∪ nxt)

/-- The fixed-point loop shared by `PlusMatcher.match` and `StarMatcher.match`:
`all` is the accumulated result set, `cur` the frontier of newly discovered
states; one iteration applies the node to the frontier and keeps what was not
already accumulated.  `none` on fuel exhaustion. -/
def fixLoop (f : MatchState → Option (Finset MatchState)) :
    Nat → Finset MatchState → Finset MatchState → Option (Finset MatchState)
  | 0, all, cur => if cur = ∅ then some all else none
  | fuel + 1, all, cur =>
    if cur = ∅ then some all
    else match unionOver f cur with
      | none => none
      | some nxt => fixLoop f fuel (all ∪ (nxt \ all)) (nxt \ all)

/-- Python `int()` on the digit/comma fragments the quantifier parser collects:
raises (`none`) on the empty string or a non-digit, otherwise the decimal value. -/
def pyInt (cs : List Char) : Option Nat :=
  if cs = [] then none
  else if cs.all Char.isDigit then some (cs.foldl (fun a c => a * 10 + (c.toNat - 48)) 0)
  else none

/-- Python `str.split(sep)` for a one-character separator: keeps empty parts. -/
def pySplit (sep : Char) : List Char → List (List Char)
  | [] => [[]]
  | x :: xs =>
    match pySplit sep xs with
    | [] => [[x]]
    | h :: t => if x = sep then [] :: h :: t else (x :: h) :: t

/-- The opening brace character (written by code point to keep it out of
string and character literals). -/
def lbrace : Char := Char.ofNat 123

/-- The closing brace character. -/
def rbrace : Char := Char.ofNat 125

/-- A word character in the sense of `WordMatcher`: `isalnum()` or underscore. -/
def isWordChar (c : Char) : Bool := c.isAlphanum || c = '_'

/-- `Matcher.match` of matcher.py: evaluate a node on `(line, state)`,
returning the set of successor states, `none` for a raised exception or
exhausted fuel.  Each recursive evaluation spends one unit of fuel. -/
def matchM (line : List Char) : Nat → Matcher → MatchState → Option (Finset MatchState)
  | 0, _, _ => none
  | fuel + 1, m, s =>
    match m with
    | .literal c =>
      some (if line.get? s.pos = some c then {⟨s.pos + 1, s.groups⟩} else ∅)
    | .digit =>
      some (if (line.get? s.pos).map Char.isDigit = some true then {⟨s.pos + 1, s.groups⟩} else ∅)
    | .word =>
      some (if (line.get? s.pos).map isWordChar = some true then {⟨s.pos + 1, s.groups⟩} else ∅)
    | .anyChar =>
      some (if s.pos < line.length then {⟨s.pos + 1, s.groups⟩} else ∅)
    | .charClass charset negated =>
      some (match line.get? s.pos with
        | none => ∅
        | some c =>
          if (!negated && charset.contains c) || (negated && !charset.contains c) then
            {⟨s.pos + 1, s.groups⟩}
          else ∅)
    | .sequence ms => seqFold (matchM line fuel) ms {s}
    | .alternation l r =>
      match matchM line fuel l s with
      | none => none
      | some a =>
        match matchM line fuel r s with
        | none => none
        | some b => some (a ∪ b)
    | .opt m => (matchM line fuel m s).map ({s} ∪ ·)
    | .plus m =>
      match matchM line fuel m s with
      | none => none
      | some r0 => fixLoop (matchM line fuel m) fuel r0 r0
    | .star m => fixLoop (matchM line fuel m) fuel {s} {s}
    | .anchorStart => some (if s.pos = 0 then {s} else ∅)
    | .anchorEnd => some (if s.pos = line.length then {s} else ∅)
    | .captureGroup m gid =>
      (matchM line fuel m s).map fun rs =>
        rs.image fun r =>
          ⟨r.pos, groupsInsert gid ((line.drop s.pos).take (r.pos - s.pos)) r.groups⟩
    | .backreference gid =>
      some (match groupsLookup gid s.groups with
        | none => ∅
        | some ref =>
          if (line.drop s.pos).take ref.length = ref then
            {⟨s.pos + ref.length, s.groups⟩}
          else ∅)
    | .quantified m kind =>
      if kind = ['?'] then (matchM line fuel m s).map ({s} ∪ ·)
      else if kind = ['+'] then
        match matchM line fuel m s with
        | none => none
        | some r0 => fixLoop (matchM line fuel m) fuel r0 r0
      else if kind = ['*'] then fixLoop (matchM line fuel m) fuel {s} {s}
      else if kind.head? = some lbrace ∧ kind.getLast? = some rbrace then
        let content := (kind.drop 1).dropLast
        if ',' ∈ content then
          let parts := pySplit ',' content
          match pyInt (parts.headD []) with
          | none => none
          | some n =>
            let p1 := parts.getD 1 []
            if p1 = [] then
              match repeatN (matchM line fuel m) n {s} with
              | none => none
              | some results =>
                (unionOver (fun t => fixLoop (matchM line fuel m) fuel {t} {t}) results).map
                  (results ∪ ·)
            else
              match pyInt p1 with
              | none => none
              | some mx =>
                match repeatN (matchM line fuel m) n {s} with
                | none => none
                | some results => accumRounds (matchM line fuel m) (mx - n) results
        else
          match pyInt content with
          | none => none
          | some n => repeatN (matchM line fuel m) n {s}
      else matchM line fuel m s

/-- The mutable cursor of `PatternParser`: the pattern text, the scan index,
and the next capture-group id to assign. -/
structure PState where
  pattern : List Char
  index : Nat
  nextGroupId : Nat
deriving Repr

/-- `PatternParser.peek`. -/
def peekP (st : PState) : Option Char := st.pattern.get? st.index

/-- The index bump of `PatternParser.advance` (which advances only when a
character is available). -/
def bumpP (st : PState) : PState :=
  if (peekP st).isSome then { st with index := st.index + 1 } else st

/-- Which recursive-descent routine of `PatternParser` is running:
`expr`/`exprLoop` are `_parse_expression` (the alternation loop carries the
accumulated left tree), `term` is `_parse_factor`-collection inside
`_parse_term`, `factor` and `atom` the routines of those names. -/
inductive PMode where
  | expr
  | exprLoop (left : Matcher)
  | term (acc : List Matcher)
  | factor
  | atom
deriving Repr

/-- A character the `while` of the quantifier-brace scanner keeps:
`c.isdigit() or c == ","`. -/
def isDigitOrComma (c : Char) : Bool := c.isDigit || c = ','

/-- The recursive-descent parser of parser.py, all routines merged into one
fuel-indexed function (each routine call spends one unit of fuel).  `none`
models a raised `ParseError` (and exhausted fuel). -/
def parseGo : Nat → PMode → PState → Option (Matcher × PState)
  | 0, _, _ => none
  | fuel + 1, mode, st =>
    match mode with
    | .expr =>
      match parseGo fuel (.term []) st with
      | none => none
      | some (left, st') => parseGo fuel (.exprLoop left) st'
    | .exprLoop left =>
      if peekP st = some '|' then
        match parseGo fuel (.term []) (bumpP st) with
        | none => none
        | some (right, st') => parseGo fuel (.exprLoop (.alternation left right)) st'
      else some (left, st)
    | .term acc =>
      match peekP st with
      | some c =>
        if c = ')' ∨ c = '|' then
          match acc with
          | [] => none
          | [single] => some (single, st)
          | _ => some (.sequence acc, st)
        else
          match parseGo fuel .factor st with
          | none => none
          | some (f, st') => parseGo fuel (.term (acc ++ [f])) st'
      | none =>
        match acc with
        | [] => none
        | [single] => some (single, st)
        | _ => some (.sequence acc, st)
    | .factor =>
      match parseGo fuel .atom st with
      | none => none
      | some (atom, st') =>
        match peekP st' with
        | some '?' => some (.opt atom, bumpP st')
        | some '+' => some (.plus atom, bumpP st')
        | some '*' => some (.star atom, bumpP st')
        | nxt =>
          if nxt = some lbrace then
            let st2 := bumpP st'
            let content := (st2.pattern.drop st2.index).takeWhile isDigitOrComma
            let st3 : PState := { st2 with index := st2.index + content.length }
            if peekP st3 = some rbrace then
              some (.quantified atom (lbrace :: (content ++ [rbrace])), bumpP st3)
            else none
          else some (atom, st')
    | .atom =>
      match peekP st with
      | none => none
      | some c =>
        if c = '^' then some (.anchorStart, bumpP st)
        else if c = '$' then some (.anchorEnd, bumpP st)
        else if c = '.' then some (.anyChar, bumpP st)
        else if c = '\\' then
          let st' := bumpP st
          match peekP st' with
          | none => none
          | some ch =>
            if ch.isDigit then some (.backreference (ch.toNat - 48), bumpP st')
            else if ch = 'd' then some (.digit, bumpP st')
            else if ch = 'w' then some (.word, bumpP st')
            else some (.literal ch, bumpP st')
        else if c = '[' then
          let st1 := bumpP st
          let negated := peekP st1 = some '^'
          let st2 := if negated then bumpP st1 else st1
          let chars := (st2.pattern.drop st2.index).takeWhile (fun d => d ≠ ']')
          let st3 : PState := { st2 with index := st2.index + chars.length }
          if peekP st3 = some ']' then
            some (.charClass chars negated, bumpP st3)
          else none
        else if c = '(' then
          let gid := st.nextGroupId
          let st1 : PState := { bumpP st with nextGroupId := gid + 1 }
          match parseGo fuel .expr st1 with
          | none => none
          | some (expr, st2) =>
            if peekP st2 = some ')' then some (.captureGroup expr gid, bumpP st2)
            else none
        else some (.literal c, bumpP st)

/-- `PatternParser.parse` (as `compile_pattern` invokes it): parse a full
expression and require the whole pattern to be consumed. -/
def parsePattern (fuel : Nat) (pattern : List Char) : Option Matcher :=
  match parseGo fuel .expr ⟨pattern, 0, 1⟩ with
  | none => none
  | some (expr, st) => if peekP st = none then some expr else none

/-- The greatest ending position of a non-empty result set
(`max(state.pos for state in next_states)`). -/
def maxEnd (ss : Finset MatchState) : Nat :=
  ss.fold max 0 MatchState.pos

/-- The scan loop of `find_matches`: `step i` evaluates the compiled tree from
a fresh state at offset `i`; the loop runs while `i < length(line)`, emits
`line[i:maxEnd]` on a non-empty result set and advances `i` to
`max(maxEnd, i + 1)`, else advances by 1.  The first argument counts remaining
loop iterations (`line.length + 1` always suffices since `i` strictly grows). -/
def findFrom (step : Nat → Option (Finset MatchState)) (line : List Char) :
    Nat → Nat → Option (List (List Char))
  | 0, _ => none
  | k + 1, i =>
    if line.length ≤ i then some []
    else match step i with
      | none => none
      | some S =>
        if S = ∅ then findFrom step line k (i + 1)
        else
          let lp := maxEnd S
          match findFrom step line k (max lp (i + 1)) with
          | none => none
          | some rest => some (((line.drop i).take (lp - i)) :: rest)

/-- `find_matches(line, pattern)` on an already-compiled tree. -/
def findMatchesT (fuel : Nat) (tree : Matcher) (line : List Char) :
    Option (List (List Char)) :=
  findFrom (fun i => matchM line fuel tree ⟨i, []⟩) line (line.length + 1) 0

/-- `find_matches(line, pattern)`: compile (`none` = ParseError) and scan. -/
def findMatchesFull (fuel : Nat) (pattern line : List Char) :
    Option (List (List Char)) :=
  match parsePattern fuel pattern with
  | none => none
  | some tree => findMatchesT fuel tree line

/-- The scan loop of `match_pattern`: test the starting offsets in order,
return `true` at the first offset with a non-empty result set (short-circuit),
`false` when the list is exhausted; an offset that raises propagates the
exception. -/
def matchLoop (f : Nat → Option (Finset MatchState)) : List Nat → Option Bool
  | [] => some false
  | i :: rest =>
    match f i with
    | none => none
    | some S => if S = ∅ then matchLoop f rest else some true

/-- `match_pattern(line, pattern)`: compile, then test offset 0 only when the
pattern's literal text begins with a caret, otherwise `range(len(line))`. -/
def matchPatternFull (fuel : Nat) (pattern line : List Char) : Option Bool :=
  match parsePattern fuel pattern with
  | none => none
  | some tree =>
    let starts := if pattern.head? = some '^' then [0] else List.range line.length
    matchLoop (fun i => matchM line fuel tree ⟨i, []⟩) starts

/-- The scan loop exactly as claim C2 words it: identical to `findFrom`
except that the starting offsets run from 0 to `length(line)` inclusive
(the loop also evaluates the empty suffix at `i = length(line)`). -/
def scanSpecInclusive (step : Nat → Option (Finset MatchState)) (line : List Char) :
    Nat → Nat → Option (List (List Char))
  | 0, _ => none
  | k + 1, i =>
    if line.length < i then some []
    else match step i with
      | none => none
      | some S =>
        if S = ∅ then scanSpecInclusive step line k (i + 1)
        else
          let lp := maxEnd S
          match scanSpecInclusive step line k (max lp (i + 1)) with
          | none => none
          | some rest => some (((line.drop i).take (lp - i)) :: rest)

/-- The full pipeline under claim C2's inclusive-scan reading. -/
def findMatchesSpecInclusive (fuel : Nat) (pattern line : List Char) :
    Option (List (List Char)) :=
  match parsePattern fuel pattern with
  | none => none
  | some tree =>
    scanSpecInclusive (fun i => matchM line fuel tree ⟨i, []⟩) line (line.length + 2) 0

/-- The scan loop as the amended claim C2 words it: starting offsets `i` with
`0 ≤ i < length(line)` (the empty suffix at `i = length(line)` is never
evaluated); empty result set advances `i` by one, otherwise the substring up
to the maximum ending position is emitted and `i` advances to
`max(thatEndingPosition, i + 1)`. -/
def scanSpecAmended (step : Nat → Option (Finset MatchState)) (line : List Char) :
    Nat → Nat → Option (List (List Char))
  | 0, _ => none
  | k + 1, i =>
    if line.length ≤ i then some []
    else match step i with
      | none => none
      | some S =>
        if S = ∅ then scanSpecAmended step line k (i + 1)
        else
          let lp := maxEnd S
          match scanSpecAmended step line k (max lp (i + 1)) with
          | none => none
          | some rest => some (((line.drop i).take (lp - i)) :: rest)

/-- Backreference matching as claim C5 words it: the empty set when the group
id is absent; when it is bound to `ref`, the single state advanced by
`length(ref)` if the input from the current position starts with `ref`,
otherwise the empty set. -/
def backrefSpec (line : List Char) (s : MatchState) (gid : Nat) : Finset MatchState :=
  match groupsLookup gid s.groups with
  | none => ∅
  | some ref =>
    if (line.drop s.pos).take ref.length = ref then {⟨s.pos + ref.length, s.groups⟩} else ∅

/-- C1: the parser accepts the pattern `a` followed by an empty brace
quantifier, and matching the compiled tree then raises (Python:
`int("")` inside `Quantified.match` throws ValueError), for every fuel - the
`none` is a genuine exception, not fuel exhaustion.  This refutes the claim
that every accepted pattern's matcher is total. -/
theorem c1_accepted_pattern_match_raises :
    ∃ tree, parsePattern 50 ['a', lbrace, rbrace] = some tree ∧
      ∀ fuel, matchM ['a'] fuel tree ⟨0, []⟩ = none :=
  ⟨.quantified (.literal 'a') [lbrace, rbrace], rfl, fun fuel => by cases fuel <;> rfl⟩

/-- C2 (counterexample): on the empty line with pattern `a*`, the code's scan
(`while i < L`) emits nothing, while the claimed scan over offsets 0 to
`length(line)` inclusive would evaluate the empty suffix and emit one empty
match.  So `find_matches` does not implement the inclusive scan. -/
theorem c2_inclusive_scan_counterexample :
    findMatchesFull 10 ['a', '*'] [] = some [] ∧
    findMatchesSpecInclusive 10 ['a', '*'] [] = some [[]] := by
  constructor <;> decide

/-- C2 (amended): `find_matches` implements the claimed scan with the offsets
restricted to `0 ≤ i < length(line)`: the loop of `findFrom` (and hence
`findMatchesT`) coincides with `scanSpecAmended`, the amended claim's loop. -/
theorem c2_scan_loop_is_amended_spec :
    (∀ step line k i, findFrom step line k i = scanSpecAmended step line k i) ∧
    ∀ fuel tree line, findMatchesT fuel tree line =
      scanSpecAmended (fun i => matchM line fuel tree ⟨i, []⟩) line (line.length + 1) 0 := by
  have h : ∀ step line k i, findFrom step line k i = scanSpecAmended step line k i := by
    intro step line k
    induction k with
    | zero => intro i; rfl
    | succ n ih => intro i; simp only [findFrom, scanSpecAmended, ih]
  exact ⟨h, fun fuel tree line => h _ _ _ _⟩

/-- C3 (counterexample): `find_matches("aaaa", "a" + brace-2-comma-3)` is not
`["aaa", "a"]` - the trailing single `a` cannot satisfy the minimum of two
repetitions, so no second match is emitted. -/
theorem c3_spec_example_counterexample :
    findMatchesFull 50 ['a', lbrace, '2', ',', '3', rbrace] ['a', 'a', 'a', 'a'] ≠
      some [['a', 'a', 'a'], ['a']] := by decide

/-- C3 (amended): the bounded quantifier selects the greedy (longest
permissible, at most 3) match at the first offset, and the scan emits nothing
further: the result is `["aaa"]`. -/
theorem c3_bounded_quantifier_greedy :
    findMatchesFull 50 ['a', lbrace, '2', ',', '3', rbrace] ['a', 'a', 'a', 'a'] =
      some [['a', 'a', 'a']] := by decide

/-- C5: for every line, state, group id and fuel, the backreference matcher
returns (without error) exactly the set claim C5 describes: empty for an
unset group; for a bound group, the single state advanced by the captured
text's length when the input at the current position starts with that text,
else empty. -/
theorem c5_backreference_semantics (line : List Char) (s : MatchState) (gid fuel : Nat) :
    matchM line (fuel + 1) (.backreference gid) s = some (backrefSpec line s gid) := rfl

/-- C7: capture plus backreference on the spec's two examples: `(ab)\1`
matches `abab` wholly and does not match inside `abcd`. -/
theorem c7_capture_backreference_examples :
    findMatchesFull 50 ['(', 'a', 'b', ')', '\\', '1'] ['a', 'b', 'a', 'b'] =
      some [['a', 'b', 'a', 'b']] ∧
    findMatchesFull 50 ['(', 'a', 'b', ')', '\\', '1'] ['a', 'b', 'c', 'd'] = some [] := by
  constructor <;> decide

/-- C9: `MatchState` equality compares positions alone, while the hash input
`(pos, sorted(groups.items()))` also depends on the captured groups: two
concrete states compare equal yet have different hash inputs. -/
theorem c9_eq_hash_inconsistency :
    (∀ a b : MatchState, msEq a b = true ↔ a.pos = b.pos) ∧
    msEq ⟨0, []⟩ ⟨0, [(1, ['a'])]⟩ = true ∧
    msHashKey ⟨0, []⟩ ≠ msHashKey ⟨0, [(1, ['a'])]⟩ := by
  refine ⟨fun a b => ?_, by decide, by decide⟩
  simp [msEq]

/-- C10: for a successfully compiled pattern whose literal text does not begin
with a caret, `match_pattern` on the empty line returns `false`: the start
offsets are `range(0)`, so no offset is tested at all. -/
theorem c10_empty_line_no_offsets (fuel : Nat) (pattern : List Char) (tree : Matcher)
    (hp : parsePattern fuel pattern = some tree) (hhat : pattern.head? ≠ some '^') :
    matchPatternFull fuel pattern [] = some false := by
  simp [matchPatternFull, hp, if_neg hhat, matchLoop]

/-- C10 (witness): the pattern `a*` matches the empty string, yet
`match_pattern("", "a*")` is `false`. -/
theorem c10_empty_line_witness : matchPatternFull 20 ['a', '*'] [] = some false :=
  c10_empty_line_no_offsets 20 ['a', '*'] (.star (.literal 'a')) rfl (by decide)

/-- The scan loop of `match_pattern` returns `true` exactly when some listed
offset has a non-empty result set, and never raises when no listed offset
raises. -/
theorem matchLoop_spec (f : Nat → Option (Finset MatchState)) :
    ∀ L : List Nat, (∀ i ∈ L, f i ≠ none) →
      ((matchLoop f L = some true ↔ ∃ i ∈ L, ∃ S, f i = some S ∧ S ≠ ∅) ∧
        matchLoop f L ≠ none) := by
  intro L
  induction L with
  | nil => intro _; simp [matchLoop]
  | cons i rest ih =>
    intro htot
    have hi : f i ≠ none := htot i (by simp)
    obtain ⟨S, hS⟩ := Option.ne_none_iff_exists'.mp hi
    have hrest := ih (fun j hj => htot j (by simp [hj]))
    by_cases hemp : S = ∅
    · subst hemp
      have hstep : matchLoop f (i :: rest) = matchLoop f rest := by simp [matchLoop, hS]
      constructor
      · rw [hstep, hrest.1]
        constructor
        · intro ⟨j, hj, T, hT, hTne⟩
          refine ⟨j, by simp [hj], T, hT, hTne⟩
        · intro ⟨j, hj, T, hT, hTne⟩
          rcases List.mem_cons.mp hj with rfl | hj'
          · rw [hS] at hT; injection hT with hT; exact absurd hT.symm hTne
          · exact ⟨j, hj', T, hT, hTne⟩
      · rw [hstep]; exact hrest.2
    · constructor
      · constructor
        · intro _; exact ⟨i, by simp, S, hS, hemp⟩
        · intro _; simp [matchLoop, hS, hemp]
      · simp [matchLoop, hS, hemp]

/-- C6: given a successfully compiled pattern and matcher evaluations that do
not raise, `match_pattern` tests only offset 0 when the pattern's literal text
begins with a caret, otherwise it tests the offsets `0 <= i < length(line)`,
returning `true` exactly when some tested offset has a non-empty result set,
and a boolean in every case. -/
theorem c6_match_pattern_offsets (fuel : Nat) (pattern line : List Char) (tree : Matcher)
    (hp : parsePattern fuel pattern = some tree)
    (htot : ∀ i, matchM line fuel tree ⟨i, []⟩ ≠ none) :
    (pattern.head? = some '^' →
      (matchPatternFull fuel pattern line = some true ↔
        ∃ S, matchM line fuel tree ⟨0, []⟩ = some S ∧ S ≠ ∅)) ∧
    (pattern.head? ≠ some '^' →
      (matchPatternFull fuel pattern line = some true ↔
        ∃ i < line.length, ∃ S, matchM line fuel tree ⟨i, []⟩ = some S ∧ S ≠ ∅)) ∧
    matchPatternFull fuel pattern line ≠ none := by
  have hfull : matchPatternFull fuel pattern line =
      matchLoop (fun i => matchM line fuel tree ⟨i, []⟩)
        (if pattern.head? = some '^' then [0] else List.range line.length) := by
    simp [matchPatternFull, hp]
  by_cases hhat : pattern.head? = some '^'
  · have h := matchLoop_spec (fun i => matchM line fuel tree ⟨i, []⟩) [0]
      (fun i _ => htot i)
    refine ⟨fun _ => ?_, fun hcon => absurd hhat hcon, ?_⟩
    · rw [hfull, if_pos hhat, h.1]
      simp
    · rw [hfull, if_pos hhat]; exact h.2
  · have h := matchLoop_spec (fun i => matchM line fuel tree ⟨i, []⟩)
      (List.range line.length) (fun i _ => htot i)
    refine ⟨fun hcon => absurd hcon hhat, fun _ => ?_, ?_⟩
    · rw [hfull, if_neg hhat, h.1]
      simp [List.mem_range]
    · rw [hfull, if_neg hhat]; exact h.2

/-- C6 (witness): the characterization instantiated for the unanchored
literal pattern `a` on the line `ba`. -/
theorem c6_match_pattern_witness :
    ((['a'] : List Char).head? = some '^' →
      (matchPatternFull (19 + 1) ['a'] ['b', 'a'] = some true ↔
        ∃ S, matchM ['b', 'a'] (19 + 1) (.literal 'a') ⟨0, []⟩ = some S ∧ S ≠ ∅)) ∧
    ((['a'] : List Char).head? ≠ some '^' →
      (matchPatternFull (19 + 1) ['a'] ['b', 'a'] = some true ↔
        ∃ i < (['b', 'a'] : List Char).length,
          ∃ S, matchM ['b', 'a'] (19 + 1) (.literal 'a') ⟨i, []⟩ = some S ∧ S ≠ ∅)) ∧
    matchPatternFull (19 + 1) ['a'] ['b', 'a'] ≠ none :=
  c6_match_pattern_offsets (19 + 1) ['a'] ['b', 'a'] (.literal 'a') rfl
    (fun i => by simp [matchM])

/-- States produced by a clean `unionOver` satisfy any property the
per-element results satisfy. -/
theorem unionOver_pres {f : MatchState → Option (Finset MatchState)} {Q : MatchState → Prop}
    {ss out : Finset MatchState}
    (hf : ∀ t ∈ ss, ∀ S, f t = some S → ∀ r ∈ S, Q r)
    (h : unionOver f ss = some out) : ∀ r ∈ out, Q r := by
  unfold unionOver at h
  split at h
  · rename_i hall
    injection h with h
    subst h
    intro r hr
    rw [Finset.mem_biUnion] at hr
    obtain ⟨t, ht, hrt⟩ := hr
    obtain ⟨S, hS⟩ := Option.isSome_iff_exists.mp (hall t ht)
    refine hf t ht S hS r ?_
    rwa [hS] at hrt
  · cases h

/-- `seqFold` preserves any property `Q` that each folded matcher preserves. -/
theorem seqFold_pres {f : Matcher → MatchState → Option (Finset MatchState)}
    {Q : MatchState → Prop} :
    ∀ {ms : List Matcher} {states out : Finset MatchState},
      (∀ m ∈ ms, ∀ t, Q t → ∀ S, f m t = some S → ∀ r ∈ S, Q r) →
      (∀ t ∈ states, Q t) → seqFold f ms states = some out → ∀ r ∈ out, Q r := by
  intro ms
  induction ms with
  | nil =>
    intro states out _ hst h
    injection h with h
    subst h
    exact hst
  | cons m rest ih =>
    intro states out hf hst h
    rw [seqFold] at h
    split at h
    · injection h with h
      subst h
      intro r hr
      exact absurd hr (Finset.not_mem_empty r)
    · split at h
      · cases h
      · rename_i nxt hun
        refine ih (fun m' hm' => hf m' (List.mem_cons_of_mem m hm')) ?_ h
        exact unionOver_pres (fun t ht S hS => hf m (List.mem_cons_self m rest) t (hst t ht) S hS) hun

/-- `repeatN` preserves any property `Q` that the repeated matcher preserves. -/
theorem repeatN_pres {f : MatchState → Option (Finset MatchState)} {Q : MatchState → Prop}
    (hf : ∀ t, Q t → ∀ S, f t = some S → ∀ r ∈ S, Q r) :
    ∀ (n : Nat) {states out : Finset MatchState},
      (∀ t ∈ states, Q t) → repeatN f n states = some out → ∀ r ∈ out, Q r := by
  intro n
  induction n with
  | zero =>
    intro states out hst h
    injection h with h
    subst h
    exact hst
  | succ n ih =>
    intro states out hst h
    rw [repeatN] at h
    split at h
    · cases h
    · rename_i nxt hun
      have hnxt : ∀ r ∈ nxt, Q r := unionOver_pres (fun t ht S hS => hf t (hst t ht) S hS) hun
      split at h
      · injection h with h
        subst h
        intro r hr
        exact absurd hr (Finset.not_mem_empty r)
      · exact ih hnxt h

/-- `accumRounds` preserves any property `Q` that the matcher preserves. -/
theorem accumRounds_pres {f : MatchState → Option (Finset MatchState)} {Q : MatchState → Prop}
    (hf : ∀ t, Q t → ∀ S, f t = some S → ∀ r ∈ S, Q r) :
    ∀ (n : Nat) {states out : Finset MatchState},
      (∀ t ∈ states, Q t) → accumRounds f n states = some out → ∀ r ∈ out, Q r := by
  intro n
  induction n with
  | zero =>
    intro states out hst h
    injection h with h
    subst h
    exact hst
  | succ n ih =>
    intro states out hst h
    rw [accumRounds] at h
    split at h
    · cases h
    · rename_i nxt hun
      have hnxt : ∀ r ∈ nxt, Q r := unionOver_pres (fun t ht S hS => hf t (hst t ht) S hS) hun
      refine ih ?_ h
      intro t ht
      rcases Finset.mem_union.mp ht with h' | h'
      · exact hst t h'
      · exact hnxt t h'

/-- `fixLoop` preserves any property `Q` that the iterated matcher preserves. -/
theorem fixLoop_pres {f : MatchState → Option (Finset MatchState)} {Q : MatchState → Prop}
    (hf : ∀ t, Q t → ∀ S, f t = some S → ∀ r ∈ S, Q r) :
    ∀ (fuel : Nat) {all cur out : Finset MatchState},
      (∀ t ∈ all, Q t) → (∀ t ∈ cur, Q t) →
      fixLoop f fuel all cur = some out → ∀ r ∈ out, Q r := by
  intro fuel
  induction fuel with
  | zero =>
    intro all cur out hall _ h
    rw [fixLoop] at h
    split at h
    · injection h with h
      subst h
      exact hall
    · cases h
  | succ fuel ih =>
    intro all cur out hall hcur h
    rw [fixLoop] at h
    split at h
    · injection h with h
      subst h
      exact hall
    · split at h
      · cases h
      · rename_i nxt hun
        have hnxt : ∀ r ∈ nxt, Q r := unionOver_pres (fun t ht S hS => hf t (hcur t ht) S hS) hun
        refine ih ?_ ?_ h
        · intro t ht
          rcases Finset.mem_union.mp ht with h' | h'
          · exact hall t h'
          · exact hnxt t (Finset.mem_sdiff.mp h').1
        · intro t ht
          exact hnxt t (Finset.mem_sdiff.mp ht).1

/-- Every matcher invocation only produces states at or beyond the input
state's position (proved for every fuel by induction on the fuel). -/
theorem matchM_pos (line : List Char) :
    ∀ (fuel : Nat) (m : Matcher) (s : MatchState) (S : Finset MatchState),
      matchM line fuel m s = some S → ∀ t ∈ S, s.pos ≤ t.pos := by
  intro fuel
  induction fuel with
  | zero => intro m s S h; cases h
  | succ fuel ih =>
    have hstep : ∀ m : Matcher, ∀ base : Nat, ∀ t : MatchState, base ≤ t.pos →
        ∀ S, matchM line fuel m t = some S → ∀ r ∈ S, base ≤ r.pos :=
      fun m base t hbt S hS r hr => le_trans hbt (ih m t S hS r hr)
    intro m s S h t ht
    cases m with
    | literal c =>
      simp only [matchM] at h
      injection h with h
      subst h
      split at ht
      · rw [Finset.mem_singleton] at ht
        subst ht
        exact Nat.le_succ _
      · exact absurd ht (Finset.not_mem_empty t)
    | digit =>
      simp only [matchM] at h
      injection h with h
      subst h
      split at ht
      · rw [Finset.mem_singleton] at ht
        subst ht
        exact Nat.le_succ _
      · exact absurd ht (Finset.not_mem_empty t)
    | word =>
      simp only [matchM] at h
      injection h with h
      subst h
      split at ht
      · rw [Finset.mem_singleton] at ht
        subst ht
        exact Nat.le_succ _
      · exact absurd ht (Finset.not_mem_empty t)
    | anyChar =>
      simp only [matchM] at h
      injection h with h
      subst h
      split at ht
      · rw [Finset.mem_singleton] at ht
        subst ht
        exact Nat.le_succ _
      · exact absurd ht (Finset.not_mem_empty t)
    | charClass charset negated =>
      simp only [matchM] at h
      injection h with h
      subst h
      split at ht
      · exact absurd ht (Finset.not_mem_empty t)
      · split at ht
        · rw [Finset.mem_singleton] at ht
          subst ht
          exact Nat.le_succ _
        · exact absurd ht (Finset.not_mem_empty t)
    | sequence ms =>
      simp only [matchM] at h
      refine seqFold_pres (f := matchM line fuel) (Q := fun r => s.pos ≤ r.pos)
        (fun m'' _ => hstep m'' s.pos) ?_ h t ht
      intro u hu
      rw [Finset.mem_singleton] at hu
      subst hu
      exact le_refl _
    | alternation l r =>
      simp only [matchM] at h
      rcases hl : matchM line fuel l s with _ | A
      · rw [hl] at h; cases h
      · rw [hl] at h
        rcases hr : matchM line fuel r s with _ | B
        · rw [hr] at h; cases h
        · rw [hr] at h
          injection h with h
          subst h
          rcases Finset.mem_union.mp ht with h' | h'
          · exact ih l s A hl t h'
          · exact ih r s B hr t h'
    | opt m' =>
      simp only [matchM] at h
      rcases hm : matchM line fuel m' s with _ | A
      · rw [hm] at h; cases h
      · rw [hm] at h
        injection h with h
        subst h
        rcases Finset.mem_union.mp ht with h' | h'
        · rw [Finset.mem_singleton] at h'
          subst h'
          exact le_refl _
        · exact ih m' s A hm t h'
    | plus m' =>
      simp only [matchM] at h
      rcases hm : matchM line fuel m' s with _ | A
      · rw [hm] at h; cases h
      · rw [hm] at h
        refine fixLoop_pres (Q := fun r => s.pos ≤ r.pos) (hstep m' s.pos) fuel
          (ih m' s A hm) (ih m' s A hm) h t ht
    | star m' =>
      simp only [matchM] at h
      refine fixLoop_pres (Q := fun r => s.pos ≤ r.pos) (hstep m' s.pos) fuel ?_ ?_ h t ht
        <;> (intro u hu; rw [Finset.mem_singleton] at hu; subst hu; exact le_refl _)
    | anchorStart =>
      simp only [matchM] at h
      injection h with h
      subst h
      split at ht
      · rw [Finset.mem_singleton] at ht
        subst ht
        exact le_refl _
      · exact absurd ht (Finset.not_mem_empty t)
    | anchorEnd =>
      simp only [matchM] at h
      injection h with h
      subst h
      split at ht
      · rw [Finset.mem_singleton] at ht
        subst ht
        exact le_refl _
      · exact absurd ht (Finset.not_mem_empty t)
    | captureGroup m' gid =>
      simp only [matchM] at h
      rcases hm : matchM line fuel m' s with _ | A
      · rw [hm] at h; cases h
      · rw [hm] at h
        injection h with h
        subst h
        rw [Finset.mem_image] at ht
        obtain ⟨r, hr, hrt⟩ := ht
        subst hrt
        exact ih m' s A hm r hr
    | backreference gid =>
      simp only [matchM] at h
      injection h with h
      subst h
      split at ht
      · exact absurd ht (Finset.not_mem_empty t)
      · split at ht
        · rw [Finset.mem_singleton] at ht
          subst ht
          exact Nat.le_add_right _ _
        · exact absurd ht (Finset.not_mem_empty t)
    | quantified m' kind =>
      have hsing : ∀ u ∈ ({s} : Finset MatchState), s.pos ≤ u.pos := by
        intro u hu
        rw [Finset.mem_singleton] at hu
        subst hu
        exact le_refl _
      simp only [matchM] at h
      by_cases hq : kind = ['?']
      · rw [if_pos hq] at h
        rcases hm : matchM line fuel m' s with _ | A
        · rw [hm] at h; cases h
        · rw [hm] at h
          injection h with h
          subst h
          rcases Finset.mem_union.mp ht with h' | h'
          · rw [Finset.mem_singleton] at h'
            subst h'
            exact le_refl _
          · exact ih m' s A hm t h'
      · rw [if_neg hq] at h
        by_cases hp : kind = ['+']
        · rw [if_pos hp] at h
          rcases hm : matchM line fuel m' s with _ | A
          · rw [hm] at h; cases h
          · rw [hm] at h
            exact fixLoop_pres (Q := fun r => s.pos ≤ r.pos) (hstep m' s.pos) fuel
              (ih m' s A hm) (ih m' s A hm) h t ht
        · rw [if_neg hp] at h
          by_cases hst : kind = ['*']
          · rw [if_pos hst] at h
            exact fixLoop_pres (Q := fun r => s.pos ≤ r.pos) (hstep m' s.pos) fuel
              hsing hsing h t ht
          · rw [if_neg hst] at h
            by_cases hbr : kind.head? = some lbrace ∧ kind.getLast? = some rbrace
            · rw [if_pos hbr] at h
              by_cases hcm : ',' ∈ (kind.drop 1).dropLast
              · rw [if_pos hcm] at h
                split at h
                · cases h
                · rename_i n hn
                  by_cases hp1 : (pySplit ',' ((kind.drop 1).dropLast)).getD 1 [] = []
                  · rw [if_pos hp1] at h
                    split at h
                    · cases h
                    · rename_i results hrep
                      have hres : ∀ u ∈ results, s.pos ≤ u.pos :=
                        repeatN_pres (hstep m' s.pos) n hsing hrep
                      rcases hun : unionOver (fun u => fixLoop (matchM line fuel m') fuel {u} {u})
                          results with _ | W
                      · rw [hun] at h
                        simp at h
                      · rw [hun, Option.map_some'] at h
                        injection h with h
                        subst h
                        rcases Finset.mem_union.mp ht with h' | h'
                        · exact hres t h'
                        · refine unionOver_pres (Q := fun r => s.pos ≤ r.pos) ?_ hun t h'
                          intro u hu V hV
                          refine fixLoop_pres (Q := fun r => s.pos ≤ r.pos) (hstep m' s.pos)
                              fuel ?_ ?_ hV
                            <;> (intro w hw; rw [Finset.mem_singleton] at hw; rw [hw];
                                 exact hres u hu)
                  · rw [if_neg hp1] at h
                    split at h
                    · cases h
                    · rename_i mx hmx
                      split at h
                      · cases h
                      · rename_i results hrep
                        exact accumRounds_pres (hstep m' s.pos) (mx - n)
                          (repeatN_pres (hstep m' s.pos) n hsing hrep) h t ht
              · rw [if_neg hcm] at h
                split at h
                · cases h
                · rename_i n hn
                  exact repeatN_pres (hstep m' s.pos) n hsing h t ht
            · rw [if_neg hbr] at h
              exact ih m' s S h t ht

/-- C4: every state in any matcher invocation's successor set has a position
greater than or equal to the input state's position. -/
theorem c4_position_never_decreases (line : List Char) (fuel : Nat) (m : Matcher)
    (s : MatchState) (S : Finset MatchState) (h : matchM line fuel m s = some S)
    (t : MatchState) (ht : t ∈ S) : s.pos ≤ t.pos :=
  matchM_pos line fuel m s S h t ht

/-- C4 (witness): the literal matcher `a` at offset 0 of the line `a`
produces only the state at position 1, which is at or beyond 0. -/
theorem c4_position_witness : (0 : Nat) ≤ (MatchState.mk 1 []).pos :=
  c4_position_never_decreases ['a'] (0 + 1) (.literal 'a') ⟨0, []⟩ {⟨1, []⟩} (by decide)
    ⟨1, []⟩ (by decide)

/-- Pointwise refinement of fallible matchers: whatever `f` decides, `f'`
decides identically. -/
def OptLE (f f' : MatchState → Option (Finset MatchState)) : Prop :=
  ∀ t S, f t = some S → f' t = some S

/-- `unionOver` respects pointwise refinement. -/
theorem unionOver_mono {f f' : MatchState → Option (Finset MatchState)}
    (hle : OptLE f f') {ss out : Finset MatchState}
    (h : unionOver f ss = some out) : unionOver f' ss = some out := by
  unfold unionOver at h ⊢
  split at h
  · rename_i hall
    have heq : ∀ t ∈ ss, f' t = f t := by
      intro t ht
      obtain ⟨S, hS⟩ := Option.isSome_iff_exists.mp (hall t ht)
      rw [hS, hle t S hS]
    rw [if_pos, Finset.biUnion_congr rfl (fun t ht => by rw [heq t ht])]
    · exact h
    · intro t ht
      rw [heq t ht]
      exact hall t ht
  · cases h

/-- `seqFold` respects pointwise refinement of each folded matcher. -/
theorem seqFold_mono {f f' : Matcher → MatchState → Option (Finset MatchState)} :
    ∀ {ms : List Matcher} {states out : Finset MatchState},
      (∀ m ∈ ms, OptLE (f m) (f' m)) →
      seqFold f ms states = some out → seqFold f' ms states = some out := by
  intro ms
  induction ms with
  | nil => intro states out _ h; exact h
  | cons m rest ih =>
    intro states out hle h
    rw [seqFold] at h ⊢
    by_cases hs : states = ∅
    · rw [if_pos hs] at h ⊢
      exact h
    · rw [if_neg hs] at h ⊢
      split at h
      · cases h
      · rename_i nxt hun
        rw [unionOver_mono (hle m (List.mem_cons_self m rest)) hun]
        exact ih (fun m' hm' => hle m' (List.mem_cons_of_mem m hm')) h

/-- `repeatN` respects pointwise refinement. -/
theorem repeatN_mono {f f' : MatchState → Option (Finset MatchState)} (hle : OptLE f f') :
    ∀ (n : Nat) {states out : Finset MatchState},
      repeatN f n states = some out → repeatN f' n states = some out := by
  intro n
  induction n with
  | zero => intro states out h; exact h
  | succ n ih =>
    intro states out h
    rw [repeatN] at h ⊢
    split at h
    · cases h
    · rename_i nxt hun
      rw [unionOver_mono hle hun]
      show (if nxt = ∅ then some ∅ else repeatN f' n nxt) = some out
      split at h
      · rename_i he
        rw [if_pos he]
        exact h
      · rename_i he
        rw [if_neg he]
        exact ih h

/-- `accumRounds` respects pointwise refinement. -/
theorem accumRounds_mono {f f' : MatchState → Option (Finset MatchState)} (hle : OptLE f f') :
    ∀ (n : Nat) {states out : Finset MatchState},
      accumRounds f n states = some out → accumRounds f' n states = some out := by
  intro n
  induction n with
  | zero => intro states out h; exact h
  | succ n ih =>
    intro states out h
    rw [accumRounds] at h ⊢
    split at h
    · cases h
    · rename_i nxt hun
      rw [unionOver_mono hle hun]
      exact ih h

/-- `fixLoop` respects pointwise refinement and extra fuel. -/
theorem fixLoop_mono {f f' : MatchState → Option (Finset MatchState)} (hle : OptLE f f') :
    ∀ (fuel : Nat) {fuel' : Nat} {all cur out : Finset MatchState}, fuel ≤ fuel' →
      fixLoop f fuel all cur = some out → fixLoop f' fuel' all cur = some out := by
  intro fuel
  induction fuel with
  | zero =>
    intro fuel' all cur out _ h
    rw [fixLoop] at h
    split at h
    · rename_i he
      injection h with h
      subst h
      cases fuel' with
      | zero => rw [fixLoop, if_pos he]
      | succ k => rw [fixLoop, if_pos he]
    · cases h
  | succ fuel ih =>
    intro fuel' all cur out hf h
    rw [fixLoop] at h
    obtain ⟨k, rfl⟩ : ∃ k, fuel' = k + 1 := ⟨fuel' - 1, by omega⟩
    rw [fixLoop]
    split at h
    · rename_i he
      injection h with h
      subst h
      rw [if_pos he]
    · rename_i he
      rw [if_neg he]
      split at h
      · cases h
      · rename_i nxt hun
        rw [unionOver_mono hle hun]
        exact ih (by omega) h

/-- Fuel monotonicity of the matcher evaluator: a clean result at some fuel is
the result at every larger fuel; so `none`-ness at all fuels is a genuine
exception and the fuel-limit semantics is well defined. -/
theorem matchM_mono (line : List Char) :
    ∀ (fuel : Nat) (m : Matcher) (s : MatchState) (S : Finset MatchState) (fuel' : Nat),
      fuel ≤ fuel' → matchM line fuel m s = some S → matchM line fuel' m s = some S := by
  intro fuel
  induction fuel with
  | zero => intro m s S fuel' _ h; cases h
  | succ fuel ih =>
    intro m s S fuel' hf h
    obtain ⟨k, rfl⟩ : ∃ k, fuel' = k + 1 := ⟨fuel' - 1, by omega⟩
    have hk : fuel ≤ k := by omega
    have hle : ∀ m' : Matcher, OptLE (matchM line fuel m') (matchM line k m') :=
      fun m' t S' hS' => ih m' t S' k hk hS'
    cases m with
    | literal c => simp only [matchM] at h ⊢; exact h
    | digit => simp only [matchM] at h ⊢; exact h
    | word => simp only [matchM] at h ⊢; exact h
    | anyChar => simp only [matchM] at h ⊢; exact h
    | charClass charset negated => simp only [matchM] at h ⊢; exact h
    | anchorStart => simp only [matchM] at h ⊢; exact h
    | anchorEnd => simp only [matchM] at h ⊢; exact h
    | backreference gid => simp only [matchM] at h ⊢; exact h
    | sequence ms =>
      simp only [matchM] at h ⊢
      exact seqFold_mono (fun m' _ => hle m') h
    | alternation l r =>
      simp only [matchM] at h ⊢
      rcases hl : matchM line fuel l s with _ | A
      · rw [hl] at h; cases h
      · rw [hl] at h
        rcases hr : matchM line fuel r s with _ | B
        · rw [hr] at h; cases h
        · rw [hr] at h
          rw [hle l s A hl, hle r s B hr]
          exact h
    | opt m' =>
      simp only [matchM] at h ⊢
      rcases hm : matchM line fuel m' s with _ | A
      · rw [hm] at h; cases h
      · rw [hm] at h
        rw [hle m' s A hm]
        exact h
    | plus m' =>
      simp only [matchM] at h ⊢
      rcases hm : matchM line fuel m' s with _ | A
      · rw [hm] at h; cases h
      · rw [hm] at h
        rw [hle m' s A hm]
        exact fixLoop_mono (hle m') fuel hk h
    | star m' =>
      simp only [matchM] at h ⊢
      exact fixLoop_mono (hle m') fuel hk h
    | captureGroup m' gid =>
      simp only [matchM] at h ⊢
      rcases hm : matchM line fuel m' s with _ | A
      · rw [hm] at h; cases h
      · rw [hm] at h
        rw [hle m' s A hm]
        exact h
    | quantified m' kind =>
      simp only [matchM] at h ⊢
      by_cases hq : kind = ['?']
      · rw [if_pos hq] at h ⊢
        rcases hm : matchM line fuel m' s with _ | A
        · rw [hm] at h; cases h
        · rw [hm] at h
          rw [hle m' s A hm]
          exact h
      · rw [if_neg hq] at h ⊢
        by_cases hp : kind = ['+']
        · rw [if_pos hp] at h ⊢
          rcases hm : matchM line fuel m' s with _ | A
          · rw [hm] at h; cases h
          · rw [hm] at h
            rw [hle m' s A hm]
            exact fixLoop_mono (hle m') fuel hk h
        · rw [if_neg hp] at h ⊢
          by_cases hst : kind = ['*']
          · rw [if_pos hst] at h ⊢
            exact fixLoop_mono (hle m') fuel hk h
          · rw [if_neg hst] at h ⊢
            by_cases hbr : kind.head? = some lbrace ∧ kind.getLast? = some rbrace
            · rw [if_pos hbr] at h ⊢
              by_cases hcm : ',' ∈ (kind.drop 1).dropLast
              · rw [if_pos hcm] at h ⊢
                split at h
                · cases h
                · rename_i n hn
                  by_cases hp1 : (pySplit ',' ((kind.drop 1).dropLast)).getD 1 [] = []
                  · rw [if_pos hp1] at h ⊢
                    split at h
                    · cases h
                    · rename_i results hrep
                      rw [repeatN_mono (hle m') n hrep]
                      show Option.map (fun x => results ∪ x)
                        (unionOver (fun u => fixLoop (matchM line k m') k {u} {u}) results) =
                          some S
                      rcases hun : unionOver (fun u => fixLoop (matchM line fuel m') fuel {u} {u})
                          results with _ | W
                      · rw [hun] at h
                        simp at h
                      · rw [hun] at h
                        rw [unionOver_mono (fun u V hV => fixLoop_mono (hle m') fuel hk hV) hun]
                        exact h
                  · rw [if_neg hp1] at h ⊢
                    split at h
                    · cases h
                    · rename_i mx hmx
                      split at h
                      · cases h
                      · rename_i results hrep
                        rw [repeatN_mono (hle m') n hrep]
                        show accumRounds (matchM line k m') (mx - n) results = some S
                        exact accumRounds_mono (hle m') (mx - n) h
              · rw [if_neg hcm] at h ⊢
                split at h
                · cases h
                · rename_i n hn
                  exact repeatN_mono (hle m') n h
            · rw [if_neg hbr] at h ⊢
              exact hle m' s S h

/-- The Python semantics of a matcher call: the result set it returns, i.e.
the fuel-limit of the evaluator (`some` at every sufficient fuel). -/
def MatchOut (m : Matcher) (line : List Char) (s : MatchState) (S : Finset MatchState) : Prop :=
  ∃ fuel, matchM line fuel m s = some S

/-- One application of a matcher node, as a relation on states: `v` is among
the successor states the node returns on `u`. -/
def StepMO (m : Matcher) (line : List Char) (u v : MatchState) : Prop :=
  ∃ S, MatchOut m line u S ∧ v ∈ S

/-- The fuel-limit semantics is single valued. -/
theorem MatchOut_unique {m : Matcher} {line : List Char} {s : MatchState}
    {S S' : Finset MatchState} (h : MatchOut m line s S) (h' : MatchOut m line s S') :
    S = S' := by
  obtain ⟨f1, h1⟩ := h
  obtain ⟨f2, h2⟩ := h'
  have e1 := matchM_mono line f1 m s S (max f1 f2) (le_max_left _ _) h1
  have e2 := matchM_mono line f2 m s S' (max f1 f2) (le_max_right _ _) h2
  rw [e1] at e2
  injection e2

/-- One parallel application of a total matcher function to a set of states. -/
def stepP (g : MatchState → Finset MatchState) (cur : Finset MatchState) :
    Finset MatchState :=
  cur.biUnion g

/-- The states within a given number of applications of `g` from a seed set. -/
def reachAux (g : MatchState → Finset MatchState) :
    Nat → Finset MatchState → Finset MatchState
  | 0, X => X
  | k + 1, X => reachAux g k X ∪ stepP g (reachAux g k X)

/-- The fixed-point loop on a total matcher function: the exception-free
skeleton of `fixLoop`. -/
def fixLoopP (g : MatchState → Finset MatchState) :
    Nat → Finset MatchState → Finset MatchState → Option (Finset MatchState)
  | 0, all, cur => if cur = ∅ then some all else none
  | fuel + 1, all, cur =>
    if cur = ∅ then some all
    else fixLoopP g fuel (all ∪ (stepP g cur \ all)) (stepP g cur \ all)

/-- A clean `unionOver` over a set where `f` agrees with the total function
`g` computes exactly one parallel step of `g`. -/
theorem unionOver_total {f : MatchState → Option (Finset MatchState)}
    {g : MatchState → Finset MatchState} {cur : Finset MatchState}
    (hg : ∀ t ∈ cur, f t = some (g t)) : unionOver f cur = some (stepP g cur) := by
  unfold unionOver
  rw [if_pos]
  · congr 1
    refine Finset.biUnion_congr rfl ?_
    intro t ht
    rw [hg t ht]
    rfl
  · intro t ht
    rw [hg t ht]
    rfl

/-- On sets inside a `g`-closed region where the evaluator is total and agrees
with `g`, the exception-aware loop equals the pure loop. -/
theorem fixLoop_eq_fixLoopP {f : MatchState → Option (Finset MatchState)}
    {g : MatchState → Finset MatchState} {U : Set MatchState}
    (hg : ∀ t ∈ U, f t = some (g t)) (hcl : ∀ t ∈ U, ↑(g t) ⊆ U) :
    ∀ (fuel : Nat) (all cur : Finset MatchState), ↑all ⊆ U → ↑cur ⊆ U →
      fixLoop f fuel all cur = fixLoopP g fuel all cur := by
  intro fuel
  induction fuel with
  | zero => intro all cur _ _; rfl
  | succ fuel ih =>
    intro all cur hall hcur
    rw [fixLoop, fixLoopP]
    by_cases he : cur = ∅
    · rw [if_pos he, if_pos he]
    · rw [if_neg he, if_neg he]
      rw [unionOver_total (fun t ht => hg t (hcur ht))]
      have hsub : ↑(stepP g cur \ all) ⊆ U := by
        intro x hx
        rw [Finset.mem_coe, Finset.mem_sdiff] at hx
        have hx' := hx.1
        rw [stepP, Finset.mem_biUnion] at hx'
        obtain ⟨t, ht, hxt⟩ := hx'
        exact hcl t (hcur ht) hxt
      refine ih _ _ ?_ hsub
      rw [Finset.coe_union]
      exact Set.union_subset hall hsub

/-- A parallel step is monotone in the frontier. -/
theorem stepP_mono {g : MatchState → Finset MatchState} {A B : Finset MatchState}
    (h : A ⊆ B) : stepP g A ⊆ stepP g B := by
  intro x hx
  rw [stepP, Finset.mem_biUnion] at hx ⊢
  obtain ⟨t, ht, hxt⟩ := hx
  exact ⟨t, h ht, hxt⟩

/-- A parallel step distributes over a union of frontiers. -/
theorem stepP_union {g : MatchState → Finset MatchState} {A B : Finset MatchState} :
    stepP g (A ∪ B) = stepP g A ∪ stepP g B := by
  ext x
  simp only [stepP, Finset.mem_biUnion, Finset.mem_union]
  constructor
  · rintro ⟨t, ht | ht, hxt⟩
    · exact Or.inl ⟨t, ht, hxt⟩
    · exact Or.inr ⟨t, ht, hxt⟩
  · rintro (⟨t, ht, hxt⟩ | ⟨t, ht, hxt⟩)
    · exact ⟨t, Or.inl ht, hxt⟩
    · exact ⟨t, Or.inr ht, hxt⟩

/-- Reachability-within-a-bound is monotone in the seed set. -/
theorem reachAux_mono_set {g : MatchState → Finset MatchState} {X Y : Finset MatchState}
    (h : X ⊆ Y) : ∀ k, reachAux g k X ⊆ reachAux g k Y := by
  intro k
  induction k with
  | zero => exact h
  | succ k ih =>
    rw [reachAux, reachAux]
    exact Finset.union_subset_union ih (stepP_mono ih)

/-- Reachability-within-a-bound grows with the bound. -/
theorem reachAux_mono_k {g : MatchState → Finset MatchState} {X : Finset MatchState} :
    ∀ {k k' : Nat}, k ≤ k' → reachAux g k X ⊆ reachAux g k' X := by
  intro k k' h
  induction h with
  | refl => exact Finset.Subset.refl _
  | step h ih => exact Finset.Subset.trans ih (by rw [reachAux]; exact Finset.subset_union_left)

/-- Shifting the seed of the reachability bound one step forward. -/
theorem reachAux_shift {g : MatchState → Finset MatchState} {X : Finset MatchState} :
    ∀ k, reachAux g k (X ∪ stepP g X) = reachAux g (k + 1) X := by
  intro k
  induction k with
  | zero => rfl
  | succ k ih =>
    show reachAux g k (X ∪ stepP g X) ∪ stepP g (reachAux g k (X ∪ stepP g X)) = _
    rw [ih]
    rfl

/-- Soundness of the pure loop: everything it returns was accumulated or is
reachable from the frontier within the fuel bound. -/
theorem fixLoopP_sound {g : MatchState → Finset MatchState} :
    ∀ (fuel : Nat) (all cur R : Finset MatchState),
      fixLoopP g fuel all cur = some R → R ⊆ all ∪ reachAux g fuel cur := by
  intro fuel
  induction fuel with
  | zero =>
    intro all cur R h
    rw [fixLoopP] at h
    split at h
    · injection h with h
      subst h
      exact Finset.subset_union_left
    · cases h
  | succ fuel ih =>
    intro all cur R h
    rw [fixLoopP] at h
    split at h
    · injection h with h
      subst h
      exact Finset.subset_union_left
    · have hIH := ih _ _ _ h
      have hcur_sub : cur ⊆ reachAux g fuel cur := reachAux_mono_k (Nat.zero_le fuel)
      have hsc : stepP g cur ⊆ reachAux g (fuel + 1) cur := by
        refine Finset.Subset.trans (stepP_mono hcur_sub) ?_
        rw [reachAux]
        exact Finset.subset_union_right
      refine Finset.Subset.trans hIH (Finset.union_subset ?_ ?_)
      · refine Finset.union_subset Finset.subset_union_left ?_
        refine Finset.Subset.trans Finset.sdiff_subset ?_
        exact Finset.Subset.trans hsc Finset.subset_union_right
      · have h1 : stepP g cur \ all ⊆ cur ∪ stepP g cur := by
          refine Finset.Subset.trans Finset.sdiff_subset Finset.subset_union_right
        refine Finset.Subset.trans (reachAux_mono_set h1 fuel) ?_
        rw [reachAux_shift]
        exact Finset.subset_union_right

/-- Closedness of the pure loop's result: when every non-frontier accumulated
state was already expanded, the returned set contains the accumulator and is
closed under one more parallel step. -/
theorem fixLoopP_closed {g : MatchState → Finset MatchState} :
    ∀ (fuel : Nat) (all cur R : Finset MatchState),
      fixLoopP g fuel all cur = some R → cur ⊆ all → stepP g (all \ cur) ⊆ all →
      all ⊆ R ∧ stepP g R ⊆ R := by
  intro fuel
  induction fuel with
  | zero =>
    intro all cur R h hca hexp
    rw [fixLoopP] at h
    split at h
    · rename_i he
      injection h with h
      subst h
      subst he
      rw [Finset.sdiff_empty] at hexp
      exact ⟨Finset.Subset.refl _, hexp⟩
    · cases h
  | succ fuel ih =>
    intro all cur R h hca hexp
    rw [fixLoopP] at h
    split at h
    · rename_i he
      injection h with h
      subst h
      subst he
      rw [Finset.sdiff_empty] at hexp
      exact ⟨Finset.Subset.refl _, hexp⟩
    · have hdiffeq : (all ∪ (stepP g cur \ all)) \ (stepP g cur \ all) = all := by
        ext x
        simp only [Finset.mem_sdiff, Finset.mem_union]
        constructor
        · rintro ⟨hx1 | hx1, hx2⟩
          · exact hx1
          · exact absurd hx1 hx2
        · intro hx
          refine ⟨Or.inl hx, ?_⟩
          intro hx2
          exact hx2.2 hx
      have hsc_sub : stepP g cur ⊆ all ∪ (stepP g cur \ all) := by
        intro x hx
        rw [Finset.mem_union, Finset.mem_sdiff]
        by_cases hxa : x ∈ all
        · exact Or.inl hxa
        · exact Or.inr ⟨hx, hxa⟩
      have hexp' : stepP g ((all ∪ (stepP g cur \ all)) \ (stepP g cur \ all)) ⊆
          all ∪ (stepP g cur \ all) := by
        rw [hdiffeq]
        have hsplit : stepP g all = stepP g (all \ cur) ∪ stepP g cur := by
          conv_lhs => rw [← Finset.sdiff_union_of_subset hca]
          exact stepP_union
        rw [hsplit]
        refine Finset.union_subset ?_ hsc_sub
        exact Finset.Subset.trans hexp Finset.subset_union_left
      obtain ⟨h1, h2⟩ := ih _ _ _ h Finset.subset_union_right hexp'
      exact ⟨Finset.Subset.trans Finset.subset_union_left h1, h2⟩

/-- A pure loop whose frontier is empty returns the accumulator at any fuel. -/
theorem fixLoopP_empty_frontier {g : MatchState → Finset MatchState} :
    ∀ (fuel : Nat) (all : Finset MatchState), fixLoopP g fuel all ∅ = some all := by
  intro fuel all
  cases fuel with
  | zero => rw [fixLoopP, if_pos rfl]
  | succ k => rw [fixLoopP, if_pos rfl]

/-- Termination of the pure loop: inside a finite `g`-closed region, fuel
exceeding the number of states not yet accumulated suffices for the loop to
reach its fixed point (each round strictly grows the accumulator within the
region, or ends at once). -/
theorem fixLoopP_terminates {g : MatchState → Finset MatchState} {Uf : Finset MatchState}
    (hcl : ∀ t ∈ Uf, g t ⊆ Uf) :
    ∀ (fuel : Nat) (all cur : Finset MatchState), all ⊆ Uf → cur ⊆ all →
      Uf.card - all.card < fuel → ∃ R, fixLoopP g fuel all cur = some R := by
  intro fuel
  induction fuel with
  | zero => intro all cur _ _ hlt; exact absurd hlt (Nat.not_lt_zero _)
  | succ fuel ih =>
    intro all cur hU hca hlt
    by_cases he : cur = ∅
    · exact ⟨all, by rw [fixLoopP, if_pos he]⟩
    · rw [fixLoopP, if_neg he]
      have hscU : stepP g cur ⊆ Uf := by
        intro x hx
        rw [stepP, Finset.mem_biUnion] at hx
        obtain ⟨t, ht, hxt⟩ := hx
        exact hcl t (hU (hca ht)) hxt
      by_cases hnw : stepP g cur \ all = ∅
      · rw [hnw]
        exact ⟨all ∪ ∅, fixLoopP_empty_frontier fuel _⟩
      · have hdisj : Disjoint all (stepP g cur \ all) := Finset.disjoint_sdiff
        have hcard : (all ∪ (stepP g cur \ all)).card = all.card + (stepP g cur \ all).card :=
          Finset.card_union_of_disjoint hdisj
        have hpos : 0 < (stepP g cur \ all).card :=
          Finset.card_pos.mpr (Finset.nonempty_iff_ne_empty.mpr hnw)
        have hsubU : all ∪ (stepP g cur \ all) ⊆ Uf :=
          Finset.union_subset hU (Finset.Subset.trans Finset.sdiff_subset hscU)
        have hle : (all ∪ (stepP g cur \ all)).card ≤ Uf.card := Finset.card_le_card hsubU
        exact ih _ _ hsubU Finset.subset_union_right (by omega)

/-- Membership in the bounded reachability set yields a reflexive-transitive
`g`-path from the seed set. -/
theorem reachAux_to_rtg {g : MatchState → Finset MatchState} :
    ∀ (k : Nat) (X : Finset MatchState) (t : MatchState), t ∈ reachAux g k X →
      ∃ u ∈ X, Relation.ReflTransGen (fun a b => b ∈ g a) u t := by
  intro k
  induction k with
  | zero => intro X t ht; exact ⟨t, ht, Relation.ReflTransGen.refl⟩
  | succ k ih =>
    intro X t ht
    rw [reachAux, Finset.mem_union] at ht
    rcases ht with ht | ht
    · exact ih X t ht
    · rw [stepP, Finset.mem_biUnion] at ht
      obtain ⟨r, hr, htr⟩ := ht
      obtain ⟨u, hu, hpath⟩ := ih X r hr
      exact ⟨u, hu, Relation.ReflTransGen.tail hpath htr⟩

/-- A reflexive-transitive `g`-path lands inside some bounded reachability
set over its start. -/
theorem rtg_to_reachAux {g : MatchState → Finset MatchState} {u t : MatchState}
    (h : Relation.ReflTransGen (fun a b => b ∈ g a) u t) :
    ∀ X : Finset MatchState, u ∈ X → ∃ k, t ∈ reachAux g k X := by
  induction h with
  | refl => intro X hu; exact ⟨0, hu⟩
  | tail hab hbc ih =>
    intro X hu
    obtain ⟨k, hk⟩ := ih X hu
    refine ⟨k + 1, ?_⟩
    rw [reachAux, Finset.mem_union]
    right
    rw [stepP, Finset.mem_biUnion]
    exact ⟨_, hk, hbc⟩

mutual
/-- The capture-group ids occurring in a matcher tree. -/
def gidsOf : Matcher → Finset Nat
  | .literal _ => ∅
  | .digit => ∅
  | .word => ∅
  | .anyChar => ∅
  | .charClass _ _ => ∅
  | .sequence ms => gidsOfList ms
  | .alternation l r => gidsOf l ∪ gidsOf r
  | .opt m => gidsOf m
  | .plus m => gidsOf m
  | .star m => gidsOf m
  | .anchorStart => ∅
  | .anchorEnd => ∅
  | .captureGroup m gid => insert gid (gidsOf m)
  | .backreference _ => ∅
  | .quantified m _ => gidsOf m

/-- The capture-group ids occurring in a list of matcher trees. -/
def gidsOfList : List Matcher → Finset Nat
  | [] => ∅
  | m :: ms => gidsOf m ∪ gidsOfList ms
end

/-- All contiguous segments of a line (Python slices `line[a:b]`), as a
finite set. -/
def subsegsF (line : List Char) : Finset (List Char) :=
  ((Finset.range (line.length + 1)) ×ˢ (Finset.range (line.length + 1))).image
    (fun p => (line.drop p.1).take p.2)

/-- The keys of a groups association list, as a finite set. -/
def keysOfF (g : List (Nat × List Char)) : Finset Nat := (g.map Prod.fst).toFinset

/-- The values of a groups association list, as a finite set. -/
def valsOfF (g : List (Nat × List Char)) : Finset (List Char) := (g.map Prod.snd).toFinset

/-- Well-formedness of the canonical groups representation: keys strictly
increase along the list (hence are distinct) - every list that models a
Python dict satisfies this. -/
def GroupsWF (g : List (Nat × List Char)) : Prop := (g.map Prod.fst).Pairwise (· < ·)

/-- Every Python slice `line[a:a+b]` is a contiguous segment of the line. -/
theorem subsegs_mem (line : List Char) (a b : Nat) :
    (line.drop a).take b ∈ subsegsF line := by
  have hd : line.drop a = line.drop (min a line.length) := by
    rcases Nat.le_total a line.length with h | h
    · rw [Nat.min_eq_left h]
    · rw [Nat.min_eq_right h, List.drop_of_length_le h, List.drop_length]
  have ht : (line.drop (min a line.length)).take b =
      (line.drop (min a line.length)).take (min b line.length) := by
    rcases Nat.le_total b line.length with h | h
    · rw [Nat.min_eq_left h]
    · rw [Nat.min_eq_right h]
      have hlen : (line.drop (min a line.length)).length ≤ line.length := by
        rw [List.length_drop]
        omega
      rw [List.take_of_length_le (le_trans hlen h), List.take_of_length_le hlen]
  rw [hd, ht, subsegsF, Finset.mem_image]
  refine ⟨(min a line.length, min b line.length), ?_, rfl⟩
  rw [Finset.mem_product, Finset.mem_range, Finset.mem_range]
  omega

/-- A dict update inserts the new pair or keeps an existing one. -/
theorem groupsInsert_mem {k : Nat} {v : List Char} :
    ∀ {g : List (Nat × List Char)} {p : Nat × List Char},
      p ∈ groupsInsert k v g → p = (k, v) ∨ p ∈ g := by
  intro g
  induction g with
  | nil =>
    intro p hp
    rw [groupsInsert, List.mem_singleton] at hp
    exact Or.inl hp
  | cons q rest ih =>
    intro p hp
    rw [groupsInsert] at hp
    split at hp
    · rcases List.mem_cons.mp hp with hp | hp
      · exact Or.inl hp
      · exact Or.inr hp
    · split at hp
      · rcases List.mem_cons.mp hp with hp | hp
        · exact Or.inl hp
        · exact Or.inr (List.mem_cons_of_mem q hp)
      · rcases List.mem_cons.mp hp with hp | hp
        · rw [hp]
          exact Or.inr (List.mem_cons_self q rest)
        · rcases ih hp with hp' | hp'
          · exact Or.inl hp'
          · exact Or.inr (List.mem_cons_of_mem q hp')

/-- The keys after a dict update are the new key or old keys. -/
theorem groupsInsert_keys {k : Nat} {v : List Char} {g : List (Nat × List Char)} {x : Nat}
    (hx : x ∈ (groupsInsert k v g).map Prod.fst) : x = k ∨ x ∈ g.map Prod.fst := by
  rw [List.mem_map] at hx
  obtain ⟨p, hp, hpx⟩ := hx
  rcases groupsInsert_mem hp with hp' | hp'
  · left
    rw [← hpx, hp']
  · right
    rw [List.mem_map]
    exact ⟨p, hp', hpx⟩

/-- A dict update preserves well-formedness of the groups representation. -/
theorem groupsInsert_wf {k : Nat} {v : List Char} :
    ∀ {g : List (Nat × List Char)}, GroupsWF g → GroupsWF (groupsInsert k v g) := by
  intro g
  induction g with
  | nil =>
    intro _
    rw [groupsInsert]
    exact List.pairwise_singleton _ _
  | cons q rest ih =>
    intro hwf
    rw [GroupsWF, List.map_cons, List.pairwise_cons] at hwf
    obtain ⟨hq, hrest⟩ := hwf
    rw [groupsInsert]
    split
    · rename_i hlt
      rw [GroupsWF, List.map_cons, List.map_cons, List.pairwise_cons, List.pairwise_cons]
      refine ⟨?_, hq, hrest⟩
      intro x hx
      rcases List.mem_cons.mp hx with hx' | hx'
      · rw [hx']; exact hlt
      · exact lt_trans hlt (hq x hx')
    · split
      · rename_i hne heq
        rw [GroupsWF, List.map_cons, List.pairwise_cons]
        refine ⟨?_, hrest⟩
        intro x hx
        rw [heq]
        exact hq x hx
      · rename_i hne1 hne2
        rw [GroupsWF, List.map_cons, List.pairwise_cons]
        refine ⟨?_, ih hrest⟩
        intro x hx
        rcases groupsInsert_keys hx with hx' | hx'
        · rw [hx']
          omega
        · exact hq x hx'

/-- The bookkeeping invariant of one matcher invocation started at `s`:
positions stay within `max s.pos line.length`, every capture key is an old key
or a group id of the tree (bounded by `G`), every capture value is an old
value or a segment of the line, and well-formedness of groups is preserved. -/
def SOKg (G : Finset Nat) (line : List Char) (s t : MatchState) : Prop :=
  t.pos ≤ max s.pos line.length ∧
  (∀ p ∈ t.groups, p.1 ∈ keysOfF s.groups ∪ G ∧ p.2 ∈ valsOfF s.groups ∪ subsegsF line) ∧
  (GroupsWF s.groups → GroupsWF t.groups)

/-- The invariant holds reflexively. -/
theorem SOKg_refl (G : Finset Nat) (line : List Char) (s : MatchState) : SOKg G line s s := by
  refine ⟨le_max_left _ _, ?_, fun h => h⟩
  intro p hp
  constructor
  · rw [Finset.mem_union]
    left
    rw [keysOfF, List.mem_toFinset, List.mem_map]
    exact ⟨p, hp, rfl⟩
  · rw [Finset.mem_union]
    left
    rw [valsOfF, List.mem_toFinset, List.mem_map]
    exact ⟨p, hp, rfl⟩

/-- The invariant advances by one position while inside the line. -/
theorem SOKg_advance {line : List Char} {s : MatchState} (G : Finset Nat)
    (h : s.pos < line.length) : SOKg G line s ⟨s.pos + 1, s.groups⟩ := by
  refine ⟨le_trans h (le_max_right _ _), ?_, fun h => h⟩
  exact (SOKg_refl G line s).2.1

/-- The invariant composes transitively. -/
theorem SOKg_trans {G : Finset Nat} {line : List Char} {s t u : MatchState}
    (h1 : SOKg G line s t) (h2 : SOKg G line t u) : SOKg G line s u := by
  obtain ⟨hp1, hg1, hw1⟩ := h1
  obtain ⟨hp2, hg2, hw2⟩ := h2
  refine ⟨le_trans hp2 (max_le hp1 (le_max_right _ _)), ?_, fun h => hw2 (hw1 h)⟩
  intro p hp
  obtain ⟨hk, hv⟩ := hg2 p hp
  constructor
  · rw [Finset.mem_union] at hk
    rcases hk with hk | hk
    · rw [keysOfF, List.mem_toFinset, List.mem_map] at hk
      obtain ⟨q, hq, hqk⟩ := hk
      rw [← hqk]
      exact (hg1 q hq).1
    · exact Finset.mem_union_right _ hk
  · rw [Finset.mem_union] at hv
    rcases hv with hv | hv
    · rw [valsOfF, List.mem_toFinset, List.mem_map] at hv
      obtain ⟨q, hq, hqv⟩ := hv
      rw [← hqv]
      exact (hg1 q hq).2
    · exact Finset.mem_union_right _ hv

/-- The invariant is monotone in the bounding set of group ids. -/
theorem SOKg_mono {G G' : Finset Nat} {line : List Char} {s t : MatchState}
    (hsub : G ⊆ G') (h : SOKg G line s t) : SOKg G' line s t := by
  obtain ⟨hp, hg, hw⟩ := h
  refine ⟨hp, ?_, hw⟩
  intro p hpg
  obtain ⟨hk, hv⟩ := hg p hpg
  refine ⟨?_, hv⟩
  rw [Finset.mem_union] at hk ⊢
  rcases hk with hk | hk
  · exact Or.inl hk
  · exact Or.inr (hsub hk)

/-- A successful list lookup witnesses an in-range index. -/
theorem get?_some_lt {l : List Char} {n : Nat} {c : Char} (h : l.get? n = some c) :
    n < l.length := by
  by_contra hn
  rw [List.get?_eq_none.mpr (Nat.le_of_not_lt hn)] at h
  cases h

/-- Group ids of a member are group ids of the list. -/
theorem gidsOf_mem_list {m : Matcher} : ∀ {ms : List Matcher}, m ∈ ms →
    gidsOf m ⊆ gidsOfList ms := by
  intro ms
  induction ms with
  | nil => intro h; cases h
  | cons q rest ih =>
    intro h
    rcases List.mem_cons.mp h with h | h
    · rw [gidsOfList, h]
      exact Finset.subset_union_left
    · rw [gidsOfList]
      exact Finset.Subset.trans (ih h) Finset.subset_union_right

/-- The successful-backreference position bound. -/
theorem backref_pos_le {line ref : List Char} {s : MatchState}
    (hcond : (line.drop s.pos).take ref.length = ref) :
    s.pos + ref.length ≤ max s.pos line.length := by
  have hlen : ((line.drop s.pos).take ref.length).length = ref.length := by rw [hcond]
  rw [List.length_take, List.length_drop] at hlen
  rcases Nat.le_total s.pos line.length with h | h
  · refine le_trans ?_ (le_max_right _ _)
    omega
  · have : ref.length = 0 := by omega
    rw [this]
    exact le_max_left _ _

/-- The bookkeeping invariant `SOKg` holds of every state any matcher
invocation produces: the full structural lemma behind reachable-state
finiteness. -/
theorem matchM_sok (line : List Char) :
    ∀ (fuel : Nat) (m : Matcher) (s : MatchState) (S : Finset MatchState),
      matchM line fuel m s = some S → ∀ t ∈ S, SOKg (gidsOf m) line s t := by
  intro fuel
  induction fuel with
  | zero => intro m s S h; cases h
  | succ fuel ih =>
    have hstep : ∀ (m' : Matcher) (G : Finset Nat), gidsOf m' ⊆ G → ∀ s : MatchState,
        ∀ t : MatchState, SOKg G line s t →
        ∀ S, matchM line fuel m' t = some S → ∀ r ∈ S, SOKg G line s r :=
      fun m' G hsub s t hQt S hS r hr =>
        SOKg_trans hQt (SOKg_mono hsub (ih m' t S hS r hr))
    intro m s S h t ht
    cases m with
    | literal c =>
      simp only [matchM] at h
      injection h with h
      subst h
      split at ht
      · rename_i hcond
        rw [Finset.mem_singleton] at ht
        subst ht
        exact SOKg_advance _ (get?_some_lt hcond)
      · exact absurd ht (Finset.not_mem_empty t)
    | digit =>
      simp only [matchM] at h
      injection h with h
      subst h
      split at ht
      · rename_i hcond
        rw [Finset.mem_singleton] at ht
        subst ht
        obtain ⟨c, hc, _⟩ := Option.map_eq_some'.mp hcond
        exact SOKg_advance _ (get?_some_lt hc)
      · exact absurd ht (Finset.not_mem_empty t)
    | word =>
      simp only [matchM] at h
      injection h with h
      subst h
      split at ht
      · rename_i hcond
        rw [Finset.mem_singleton] at ht
        subst ht
        obtain ⟨c, hc, _⟩ := Option.map_eq_some'.mp hcond
        exact SOKg_advance _ (get?_some_lt hc)
      · exact absurd ht (Finset.not_mem_empty t)
    | anyChar =>
      simp only [matchM] at h
      injection h with h
      subst h
      split at ht
      · rename_i hcond
        rw [Finset.mem_singleton] at ht
        subst ht
        exact SOKg_advance _ hcond
      · exact absurd ht (Finset.not_mem_empty t)
    | charClass charset negated =>
      simp only [matchM] at h
      injection h with h
      subst h
      split at ht
      · exact absurd ht (Finset.not_mem_empty t)
      · rename_i c hc
        split at ht
        · rw [Finset.mem_singleton] at ht
          subst ht
          exact SOKg_advance _ (get?_some_lt hc)
        · exact absurd ht (Finset.not_mem_empty t)
    | anchorStart =>
      simp only [matchM] at h
      injection h with h
      subst h
      split at ht
      · rw [Finset.mem_singleton] at ht
        subst ht
        exact SOKg_refl _ _ _
      · exact absurd ht (Finset.not_mem_empty t)
    | anchorEnd =>
      simp only [matchM] at h
      injection h with h
      subst h
      split at ht
      · rw [Finset.mem_singleton] at ht
        subst ht
        exact SOKg_refl _ _ _
      · exact absurd ht (Finset.not_mem_empty t)
    | backreference gid =>
      simp only [matchM] at h
      injection h with h
      subst h
      split at ht
      · exact absurd ht (Finset.not_mem_empty t)
      · rename_i ref hg
        split at ht
        · rename_i hcond
          rw [Finset.mem_singleton] at ht
          subst ht
          exact ⟨backref_pos_le hcond, (SOKg_refl _ line s).2.1, fun hw => hw⟩
        · exact absurd ht (Finset.not_mem_empty t)
    | sequence ms =>
      simp only [matchM] at h
      refine seqFold_pres (f := matchM line fuel) (Q := SOKg (gidsOf (.sequence ms)) line s)
        (fun m'' hm'' => hstep m'' _ (by rw [gidsOf]; exact gidsOf_mem_list hm'') s) ?_ h t ht
      intro u hu
      rw [Finset.mem_singleton] at hu
      subst hu
      exact SOKg_refl _ _ _
    | alternation l r =>
      simp only [matchM] at h
      rcases hl : matchM line fuel l s with _ | A
      · rw [hl] at h; cases h
      · rw [hl] at h
        rcases hr : matchM line fuel r s with _ | B
        · rw [hr] at h; cases h
        · rw [hr] at h
          injection h with h
          subst h
          rw [gidsOf]
          rcases Finset.mem_union.mp ht with h' | h'
          · exact SOKg_mono Finset.subset_union_left (ih l s A hl t h')
          · exact SOKg_mono Finset.subset_union_right (ih r s B hr t h')
    | opt m' =>
      simp only [matchM] at h
      rcases hm : matchM line fuel m' s with _ | A
      · rw [hm] at h; cases h
      · rw [hm] at h
        injection h with h
        subst h
        rw [gidsOf]
        rcases Finset.mem_union.mp ht with h' | h'
        · rw [Finset.mem_singleton] at h'
          subst h'
          exact SOKg_refl _ _ _
        · exact ih m' s A hm t h'
    | plus m' =>
      simp only [matchM] at h
      rcases hm : matchM line fuel m' s with _ | A
      · rw [hm] at h; cases h
      · rw [hm] at h
        rw [gidsOf]
        refine fixLoop_pres (Q := SOKg (gidsOf m') line s)
          (hstep m' _ (Finset.Subset.refl _) s) fuel (ih m' s A hm) (ih m' s A hm) h t ht
    | star m' =>
      simp only [matchM] at h
      rw [gidsOf]
      refine fixLoop_pres (Q := SOKg (gidsOf m') line s)
        (hstep m' _ (Finset.Subset.refl _) s) fuel ?_ ?_ h t ht
        <;> (intro u hu; rw [Finset.mem_singleton] at hu; subst hu; exact SOKg_refl _ _ _)
    | captureGroup m' gid =>
      simp only [matchM] at h
      rcases hm : matchM line fuel m' s with _ | A
      · rw [hm] at h; cases h
      · rw [hm] at h
        injection h with h
        subst h
        rw [Finset.mem_image] at ht
        obtain ⟨r, hr, hrt⟩ := ht
        subst hrt
        have hrS := ih m' s A hm r hr
        rw [gidsOf]
        refine ⟨hrS.1, ?_, ?_⟩
        · intro p hp
          rcases groupsInsert_mem hp with hp' | hp'
          · subst hp'
            constructor
            · exact Finset.mem_union_right _ (Finset.mem_insert_self _ _)
            · exact Finset.mem_union_right _ (subsegs_mem line s.pos (r.pos - s.pos))
          · obtain ⟨hk, hv⟩ := hrS.2.1 p hp'
            refine ⟨?_, hv⟩
            rw [Finset.mem_union] at hk ⊢
            rcases hk with hk | hk
            · exact Or.inl hk
            · exact Or.inr (Finset.mem_insert_of_mem hk)
        · intro hw
          exact groupsInsert_wf (hrS.2.2 hw)
    | quantified m' kind =>
      have hQstep := hstep m' (gidsOf m') (Finset.Subset.refl _) s
      have hsing : ∀ u ∈ ({s} : Finset MatchState), SOKg (gidsOf m') line s u := by
        intro u hu
        rw [Finset.mem_singleton] at hu
        subst hu
        exact SOKg_refl _ _ _
      simp only [matchM] at h
      rw [gidsOf]
      by_cases hq : kind = ['?']
      · rw [if_pos hq] at h
        rcases hm : matchM line fuel m' s with _ | A
        · rw [hm] at h; cases h
        · rw [hm] at h
          injection h with h
          subst h
          rcases Finset.mem_union.mp ht with h' | h'
          · rw [Finset.mem_singleton] at h'
            subst h'
            exact SOKg_refl _ _ _
          · exact ih m' s A hm t h'
      · rw [if_neg hq] at h
        by_cases hp : kind = ['+']
        · rw [if_pos hp] at h
          rcases hm : matchM line fuel m' s with _ | A
          · rw [hm] at h; cases h
          · rw [hm] at h
            exact fixLoop_pres (Q := SOKg (gidsOf m') line s) hQstep fuel
              (ih m' s A hm) (ih m' s A hm) h t ht
        · rw [if_neg hp] at h
          by_cases hst : kind = ['*']
          · rw [if_pos hst] at h
            exact fixLoop_pres (Q := SOKg (gidsOf m') line s) hQstep fuel hsing hsing h t ht
          · rw [if_neg hst] at h
            by_cases hbr : kind.head? = some lbrace ∧ kind.getLast? = some rbrace
            · rw [if_pos hbr] at h
              by_cases hcm : ',' ∈ (kind.drop 1).dropLast
              · rw [if_pos hcm] at h
                split at h
                · cases h
                · rename_i n hn
                  by_cases hp1 : (pySplit ',' ((kind.drop 1).dropLast)).getD 1 [] = []
                  · rw [if_pos hp1] at h
                    split at h
                    · cases h
                    · rename_i results hrep
                      have hres : ∀ u ∈ results, SOKg (gidsOf m') line s u :=
                        repeatN_pres hQstep n hsing hrep
                      rcases hun : unionOver (fun u => fixLoop (matchM line fuel m') fuel {u} {u})
                          results with _ | W
                      · rw [hun] at h
                        simp at h
                      · rw [hun, Option.map_some'] at h
                        injection h with h
                        subst h
                        rcases Finset.mem_union.mp ht with h' | h'
                        · exact hres t h'
                        · refine unionOver_pres (Q := SOKg (gidsOf m') line s) ?_ hun t h'
                          intro u hu V hV
                          refine fixLoop_pres (Q := SOKg (gidsOf m') line s) hQstep
                              fuel ?_ ?_ hV
                            <;> (intro w hw; rw [Finset.mem_singleton] at hw; rw [hw];
                                 exact hres u hu)
                  · rw [if_neg hp1] at h
                    split at h
                    · cases h
                    · rename_i mx hmx
                      split at h
                      · cases h
                      · rename_i results hrep
                        exact accumRounds_pres hQstep (mx - n)
                          (repeatN_pres hQstep n hsing hrep) h t ht
              · rw [if_neg hcm] at h
                split at h
                · cases h
                · rename_i n hn
                  exact repeatN_pres hQstep n hsing h t ht
            · rw [if_neg hbr] at h
              exact ih m' s S h t ht

/-- Lists of bounded length over a finite alphabet form a finite set. -/
theorem finite_bounded_lists {α : Type} (S : Finset α) :
    ∀ K : Nat, {l : List α | l.length ≤ K ∧ ∀ x ∈ l, x ∈ S}.Finite := by
  intro K
  induction K with
  | zero =>
    refine Set.Finite.subset (Set.finite_singleton []) ?_
    intro l hl
    rw [Set.mem_setOf_eq] at hl
    rw [Set.mem_singleton_iff]
    exact List.length_eq_zero.mp (Nat.le_zero.mp hl.1)
  | succ K ih =>
    have hsub : {l : List α | l.length ≤ K + 1 ∧ ∀ x ∈ l, x ∈ S} ⊆
        insert ([] : List α)
          (⋃ x ∈ (S : Set α), (fun l => x :: l) '' {l | l.length ≤ K ∧ ∀ y ∈ l, y ∈ S}) := by
      intro l hl
      rw [Set.mem_setOf_eq] at hl
      cases l with
      | nil => exact Set.mem_insert _ _
      | cons a l' =>
        refine Set.mem_insert_iff.mpr (Or.inr ?_)
        refine Set.mem_biUnion (hl.2 a (List.mem_cons_self a l')) ?_
        refine ⟨l', ⟨?_, fun y hy => hl.2 y (List.mem_cons_of_mem a hy)⟩, rfl⟩
        have := hl.1
        simp only [List.length_cons] at this
        omega
    refine Set.Finite.subset (Set.Finite.insert _ ?_) hsub
    exact Set.Finite.biUnion S.finite_toSet (fun x _ => ih.image _)

/-- A well-formed groups list with keys in `KS` has at most `KS.card`
entries. -/
theorem wf_length_le {g : List (Nat × List Char)} {KS : Finset Nat}
    (hWF : GroupsWF g) (hk : ∀ p ∈ g, p.1 ∈ KS) : g.length ≤ KS.card := by
  have hnd : (g.map Prod.fst).Nodup := List.Pairwise.imp Nat.ne_of_lt hWF
  have hsub : (g.map Prod.fst).toFinset ⊆ KS := by
    intro x hx
    rw [List.mem_toFinset, List.mem_map] at hx
    obtain ⟨p, hp, hpx⟩ := hx
    rw [← hpx]
    exact hk p hp
  calc g.length = (g.map Prod.fst).length := by rw [List.length_map]
    _ = (g.map Prod.fst).toFinset.card := (List.toFinset_card_of_nodup hnd).symm
    _ ≤ KS.card := Finset.card_le_card hsub

/-- Match states with bounded position and bounded, alphabet-constrained
groups form a finite set. -/
theorem finite_state_space (N K : Nat) (KS : Finset Nat) (VS : Finset (List Char)) :
    {t : MatchState | t.pos ≤ N ∧ t.groups.length ≤ K ∧
      ∀ p ∈ t.groups, p.1 ∈ KS ∧ p.2 ∈ VS}.Finite := by
  have h1 : {l : List (Nat × List Char) | l.length ≤ K ∧ ∀ x ∈ l, x ∈ KS ×ˢ VS}.Finite :=
    finite_bounded_lists (KS ×ˢ VS) K
  have h2 : ({n : Nat | n ≤ N}).Finite := Set.finite_le_nat N
  refine Set.Finite.subset ((h2.prod h1).image (fun pr => MatchState.mk pr.1 pr.2)) ?_
  intro t htm
  rw [Set.mem_setOf_eq] at htm
  refine ⟨(t.pos, t.groups), ⟨htm.1, htm.2.1, ?_⟩, rfl⟩
  intro x hx
  rw [Finset.mem_product]
  exact htm.2.2 x hx

/-- A reflexive-transitive path from a member of a step-closed set stays in
the set. -/
theorem rtg_in_closed {g : MatchState → Finset MatchState} {R : Finset MatchState}
    (hstepR : stepP g R ⊆ R) {u t : MatchState}
    (hu : u ∈ R) (hpath : Relation.ReflTransGen (fun a b => b ∈ g a) u t) : t ∈ R := by
  induction hpath with
  | refl => exact hu
  | tail hab hbc ih =>
    refine hstepR ?_
    rw [stepP, Finset.mem_biUnion]
    exact ⟨_, ih, hbc⟩

/-- A transitive path from `s` stays in a step-closed set containing the
first-step successors of `s`. -/
theorem tg_in_closed {g : MatchState → Finset MatchState} {R : Finset MatchState}
    (hstepR : stepP g R ⊆ R) {s t : MatchState} (hinit : ∀ v ∈ g s, v ∈ R)
    (hpath : Relation.TransGen (fun a b => b ∈ g a) s t) : t ∈ R := by
  induction hpath with
  | single hab => exact hinit _ hab
  | tail hab hbc ih =>
    refine hstepR ?_
    rw [stepP, Finset.mem_biUnion]
    exact ⟨_, ih, hbc⟩

/-- An edge followed by a reflexive-transitive path is a transitive path. -/
theorem edge_rtg_tg {r : MatchState → MatchState → Prop} {s u t : MatchState}
    (h1 : r s u) (h2 : Relation.ReflTransGen r u t) : Relation.TransGen r s t := by
  induction h2 with
  | refl => exact Relation.TransGen.single h1
  | tail hab hbc ih => exact Relation.TransGen.tail ih hbc

/-- C8: for a wrapped node that is total (in the fuel-limit semantics) and a
well-formed starting state, the fixed-point iterations of `PlusMatcher` and
`StarMatcher` terminate - some fuel returns a clean result, which is then the
result at every larger fuel - and return exactly the finite set of states
reachable from the start by one-or-more (Plus) resp. zero-or-more (Star)
applications of the node. -/
theorem c8_plus_star_reachability (m : Matcher) (line : List Char) (s : MatchState)
    (htotal : ∀ t : MatchState, ∃ S, MatchOut m line t S)
    (hWF : GroupsWF s.groups) :
    (∃ R, MatchOut (.plus m) line s R ∧
      ∀ t, t ∈ R ↔ Relation.TransGen (StepMO m line) s t) ∧
    (∃ R, MatchOut (.star m) line s R ∧
      ∀ t, t ∈ R ↔ Relation.ReflTransGen (StepMO m line) s t) := by
  classical
  choose g hg using htotal
  have hedge : ∀ u v, StepMO m line u v ↔ v ∈ g u := by
    intro u v
    constructor
    · rintro ⟨S, hS, hv⟩
      rwa [MatchOut_unique hS (hg u)] at hv
    · intro hv
      exact ⟨g u, hg u, hv⟩
  set U : Set MatchState := {t | t.pos ≤ max s.pos line.length ∧ GroupsWF t.groups ∧
    ∀ p ∈ t.groups, p.1 ∈ keysOfF s.groups ∪ gidsOf m ∧
      p.2 ∈ valsOfF s.groups ∪ subsegsF line} with hUdef
  have hsU : s ∈ U :=
    ⟨le_max_left _ _, hWF, fun p hp => (SOKg_refl (gidsOf m) line s).2.1 p hp⟩
  have hclU : ∀ t ∈ U, ↑(g t) ⊆ U := by
    intro t htU r hr
    obtain ⟨fu, hfu⟩ := hg t
    have hsok := matchM_sok line fu m t (g t) hfu r hr
    have hkeys : keysOfF t.groups ⊆ keysOfF s.groups ∪ gidsOf m := by
      intro x hx
      rw [keysOfF, List.mem_toFinset, List.mem_map] at hx
      obtain ⟨q, hq, hqx⟩ := hx
      rw [← hqx]
      exact (htU.2.2 q hq).1
    have hvals : valsOfF t.groups ⊆ valsOfF s.groups ∪ subsegsF line := by
      intro x hx
      rw [valsOfF, List.mem_toFinset, List.mem_map] at hx
      obtain ⟨q, hq, hqx⟩ := hx
      rw [← hqx]
      exact (htU.2.2 q hq).2
    refine ⟨le_trans hsok.1 (max_le htU.1 (le_max_right _ _)), hsok.2.2 htU.2.1, ?_⟩
    intro p hp
    obtain ⟨hk, hv⟩ := hsok.2.1 p hp
    constructor
    · rcases Finset.mem_union.mp hk with hk' | hk'
      · exact hkeys hk'
      · exact Finset.mem_union_right _ hk'
    · rcases Finset.mem_union.mp hv with hv' | hv'
      · exact hvals hv'
      · exact Finset.mem_union_right _ hv'
  have hUfin : U.Finite := by
    refine Set.Finite.subset (finite_state_space (max s.pos line.length)
      ((keysOfF s.groups ∪ gidsOf m).card) (keysOfF s.groups ∪ gidsOf m)
      (valsOfF s.groups ∪ subsegsF line)) ?_
    intro t htU
    refine ⟨htU.1, ?_, fun p hp => htU.2.2 p hp⟩
    exact wf_length_le htU.2.1 (fun p hp => (htU.2.2 p hp).1)
  set Uf : Finset MatchState := hUfin.toFinset with hUfdef
  have hUfU : ∀ x : MatchState, x ∈ Uf ↔ x ∈ U := fun x => hUfin.mem_toFinset
  have hclUf : ∀ t ∈ Uf, g t ⊆ Uf := by
    intro t ht x hx
    rw [hUfU] at ht ⊢
    exact hclU t ht hx
  have hg' : ∀ t, ∃ fuel, matchM line fuel m t = some (g t) := hg
  choose fuelOf hfuelOf using hg'
  set F : Nat := max (Uf.sup fuelOf) (Uf.card + 1) with hFdef
  have hcard_lt : Uf.card + 1 ≤ F := le_max_right _ _
  have hgF : ∀ t ∈ U, matchM line F m t = some (g t) := by
    intro t ht
    refine matchM_mono line (fuelOf t) m t (g t) F ?_ (hfuelOf t)
    exact le_trans (Finset.le_sup ((hUfU t).mpr ht)) (le_max_left _ _)
  have hrtg_iff : ∀ u t : MatchState, Relation.ReflTransGen (fun a b => b ∈ g a) u t ↔
      Relation.ReflTransGen (StepMO m line) u t := by
    intro u t
    constructor
    · exact Relation.ReflTransGen.mono (fun a b hab => (hedge a b).mpr hab)
    · exact Relation.ReflTransGen.mono (fun a b hab => (hedge a b).mp hab)
  have htg_iff : ∀ u t : MatchState, Relation.TransGen (fun a b => b ∈ g a) u t ↔
      Relation.TransGen (StepMO m line) u t := by
    intro u t
    constructor
    · exact Relation.TransGen.mono (fun a b hab => (hedge a b).mpr hab)
    · exact Relation.TransGen.mono (fun a b hab => (hedge a b).mp hab)
  constructor
  · -- Plus
    have hgs : matchM line F m s = some (g s) := hgF s hsU
    have hgsU : ↑(g s) ⊆ U := hclU s hsU
    have hgsUf : g s ⊆ Uf := by
      intro x hx
      rw [hUfU]
      exact hgsU hx
    have hbridge : fixLoop (matchM line F m) F (g s) (g s) = fixLoopP g F (g s) (g s) :=
      fixLoop_eq_fixLoopP hgF hclU F (g s) (g s) hgsU hgsU
    obtain ⟨R, hR⟩ : ∃ R, fixLoopP g F (g s) (g s) = some R := by
      refine fixLoopP_terminates hclUf F (g s) (g s) hgsUf (Finset.Subset.refl _) ?_
      have := Nat.sub_le Uf.card (g s).card
      omega
    have hclosed := fixLoopP_closed F (g s) (g s) R hR (Finset.Subset.refl _)
      (by rw [Finset.sdiff_self, stepP]; simp)
    refine ⟨R, ⟨F + 1, ?_⟩, ?_⟩
    · show matchM line (F + 1) (.plus m) s = some R
      simp only [matchM]
      rw [hgs]
      show fixLoop (matchM line F m) F (g s) (g s) = some R
      rw [hbridge]
      exact hR
    · intro t
      rw [← htg_iff]
      constructor
      · intro htR
        have hsound := fixLoopP_sound F (g s) (g s) R hR htR
        rcases Finset.mem_union.mp hsound with h' | h'
        · exact Relation.TransGen.single h'
        · obtain ⟨u, hu, hpath⟩ := reachAux_to_rtg F (g s) t h'
          exact edge_rtg_tg hu hpath
      · intro hpath
        exact tg_in_closed hclosed.2 (fun v hv => hclosed.1 hv) hpath
  · -- Star
    have hsingU : ↑({s} : Finset MatchState) ⊆ U := by
      intro x hx
      rw [Finset.mem_coe, Finset.mem_singleton] at hx
      rwa [hx]
    have hsingUf : ({s} : Finset MatchState) ⊆ Uf := by
      intro x hx
      rw [Finset.mem_singleton] at hx
      rw [hUfU]
      rwa [hx]
    have hbridge : fixLoop (matchM line F m) F {s} {s} = fixLoopP g F {s} {s} :=
      fixLoop_eq_fixLoopP hgF hclU F {s} {s} hsingU hsingU
    obtain ⟨R, hR⟩ : ∃ R, fixLoopP g F {s} {s} = some R := by
      refine fixLoopP_terminates hclUf F {s} {s} hsingUf (Finset.Subset.refl _) ?_
      have := Nat.sub_le Uf.card ({s} : Finset MatchState).card
      omega
    have hclosed := fixLoopP_closed F {s} {s} R hR (Finset.Subset.refl _)
      (by rw [Finset.sdiff_self, stepP]; simp)
    refine ⟨R, ⟨F + 1, ?_⟩, ?_⟩
    · show matchM line (F + 1) (.star m) s = some R
      simp only [matchM]
      rw [hbridge]
      exact hR
    · intro t
      rw [← hrtg_iff]
      constructor
      · intro htR
        have hsound := fixLoopP_sound F {s} {s} R hR htR
        rcases Finset.mem_union.mp hsound with h' | h'
        · rw [Finset.mem_singleton] at h'
          rw [h']
        · obtain ⟨u, hu, hpath⟩ := reachAux_to_rtg F {s} t h'
          rw [Finset.mem_singleton] at hu
          rwa [hu] at hpath
      · intro hpath
        exact rtg_in_closed hclosed.2 (hclosed.1 (Finset.mem_singleton_self s)) hpath

/-- C8 (witness): the termination-and-reachability characterization
instantiated for Plus and Star over the literal node `a`, on line `a`, from
offset 0. -/
theorem c8_reachability_witness :
    (∃ R, MatchOut (.plus (.literal 'a')) ['a'] ⟨0, []⟩ R ∧
      ∀ t, t ∈ R ↔ Relation.TransGen (StepMO (.literal 'a') ['a']) ⟨0, []⟩ t) ∧
    (∃ R, MatchOut (.star (.literal 'a')) ['a'] ⟨0, []⟩ R ∧
      ∀ t, t ∈ R ↔ Relation.ReflTransGen (StepMO (.literal 'a') ['a']) ⟨0, []⟩ t) :=
  c8_plus_star_reachability (.literal 'a') ['a'] ⟨0, []⟩
    (fun _t => ⟨_, 1, rfl⟩) List.Pairwise.nil
